import Mathlib

/-!
# Verification of the superview rendering engine core

Shallow embedding of the claim-relevant parts of the superview
HTML/CSS engine (CSS value parsing, style application, block and flex
layout, scroll clamping, word boundaries, text-selection serialization,
caret navigation, glyph hit testing), with theorems settling the frozen
claims.  C++ `float` arithmetic is modelled by exact rationals (`ℚ`);
every computation a claim touches is exact in binary floating point at
the inputs considered.  C++ `std::string` values are modelled as `List
Char` (or `List Nat` of bytes where the code works bytewise).
-/

namespace Superview

/-! ## CSS values (`CssValue`, `CssUnit`, `toPx` — part_002 lines 22-57) -/

/-- CSS unit tags, from `enum class CssUnit`. -/
inductive CssUnit where
  | Px | Em | Rem | Percent | Vw | Vh | Auto | None
  deriving DecidableEq, Repr

/-- `struct CssValue`: numeric magnitude plus unit. -/
structure CssValue where
  value : ℚ
  unit : CssUnit
  deriving DecidableEq, Repr

/-- `CssValue::toPx`: resolve to pixels given context.  `Auto` and
`None` resolve to the sentinel `-1`. -/
def CssValue.toPx (v : CssValue) (parentSize : ℚ := 0) (fontSize : ℚ := 16)
    (viewportWidth : ℚ := 1024) (viewportHeight : ℚ := 768) : ℚ :=
  match v.unit with
  | .Px => v.value
  | .Em => v.value * fontSize
  | .Rem => v.value * 16
  | .Percent => (v.value / 100) * parentSize
  | .Vw => (v.value / 100) * viewportWidth
  | .Vh => (v.value / 100) * viewportHeight
  | .Auto => -1
  | .None => -1

/-- `CssValue::isAuto`. -/
def CssValue.isAuto (v : CssValue) : Bool := v.unit = CssUnit.Auto

/-! ## `CssParser::trim` (part_002 lines 451-457) -/

/-- The characters `" \t\n\r"` stripped by `CssParser::trim`. -/
def isTrimWs (c : Char) : Bool := c = ' ' || c = '\t' || c = '\n' || c = '\r'

/-- `CssParser::trim`: strip `" \t\n\r"` from both ends. -/
def trim (s : List Char) : List Char :=
  ((s.dropWhile isTrimWs).reverse.dropWhile isTrimWs).reverse

/-! ## `CssParser::parseValue` (part_002 lines 154-212)

`std::stof` on the digits-and-dots substring is modelled by
`stofDigits`; it returns `none` exactly when `std::stof` would throw
(no leading digit before or after an optional decimal point), in which
case `parseValue` returns `none`, modelling the uncaught exception. -/

def isDigitChar (c : Char) : Bool := '0' ≤ c && c ≤ '9'

def digitVal (c : Char) : ℕ := c.toNat - '0'.toNat

/-- Value of a digit string as a natural number. -/
def digitsToNat : List Char → ℕ → ℕ
  | [], acc => acc
  | c :: cs, acc => digitsToNat cs (acc * 10 + digitVal c)

/-- Value of a fraction digit string: `digits` after the decimal point. -/
def fracToRat : List Char → ℚ
  | [] => 0
  | c :: cs => ((digitVal c : ℚ) + fracToRat cs) / 10

/-- `std::stof` restricted to strings of digits and dots (the only
shape `parseValue` feeds it): parses `digits ['.' digits*]` or
`'.' digits`, ignoring everything from a second dot on; `none` when no
digit is available to convert (C++ throws `std::invalid_argument`). -/
def stofDigits (s : List Char) : Option ℚ :=
  let intPart := s.takeWhile isDigitChar
  let rest := s.dropWhile isDigitChar
  match rest with
  | '.' :: rest' =>
      let fracPart := rest'.takeWhile isDigitChar
      if intPart.isEmpty ∧ fracPart.isEmpty then none
      else some ((digitsToNat intPart 0 : ℚ) + fracToRat fracPart)
  | _ => if intPart.isEmpty then none else some (digitsToNat intPart 0 : ℚ)

/-- Lower-casing of the unit token (`std::transform` with `tolower`). -/
def toLowerChar (c : Char) : Char := c.toLower

/-- `CssParser::parseValue`.  Returns `none` where the C++ function
would propagate an exception out of `std::stof`. -/
def parseValue (valueStr : List Char) : Option CssValue :=
  let str := trim valueStr
  if str.isEmpty then some ⟨0, .Px⟩
  else if str = "auto".toList then some ⟨0, .Auto⟩
  else if str = "none".toList ∨ str = "0".toList then some ⟨0, .None⟩
  else
    let negative : Bool := str.head? = some '-'
    let s1 := if negative then str.tail else str
    let numPart := s1.takeWhile (fun c => isDigitChar c || c = '.')
    if numPart.isEmpty then some ⟨0, .Px⟩
    else
      match stofDigits numPart with
      | none => none
      | some v =>
        let value := if negative then -v else v
        let unitStr := (trim (s1.dropWhile (fun c => isDigitChar c || c = '.'))).map toLowerChar
        let unit : CssUnit :=
          if unitStr.isEmpty ∨ unitStr = "px".toList then .Px
          else if unitStr = "em".toList then .Em
          else if unitStr = "rem".toList then .Rem
          else if unitStr = "%".toList then .Percent
          else if unitStr = "vw".toList then .Vw
          else if unitStr = "vh".toList then .Vh
          else .Px
        some ⟨value, unit⟩

/-! ## Scroll state (`RenderBox` scroll fields, part_002 lines 880-899
and 1258-1266; wheel handler HtmlParser.hpp lines 2812-2829) -/

/-- The scroll-relevant state of a `RenderBox`. -/
structure ScrollState where
  scrollY : ℚ
  scrollableHeight : ℚ
  deriving DecidableEq, Repr

/-- `RenderBox::maxScrollY`. -/
def ScrollState.maxScrollY (s : ScrollState) : ℚ := max 0 s.scrollableHeight

/-- `RenderBox::clampScroll` (vertical part). -/
def ScrollState.clampScroll (s : ScrollState) : ScrollState :=
  { s with scrollY := max 0 (min s.scrollY s.maxScrollY) }

/-- Wheel handler: `box->scrollY -= scrollDelta; box->clampScroll();`. -/
def ScrollState.wheel (s : ScrollState) (delta : ℚ) : ScrollState :=
  ScrollState.clampScroll { s with scrollY := s.scrollY - delta }

/-- `RenderBox::layout` for an `overflow: scroll/auto` box:
`scrollableHeight = max(0, naturalContentHeight - contentHeight)`,
then `clampScroll()`. -/
def ScrollState.relayout (s : ScrollState) (natural contentHeight : ℚ) : ScrollState :=
  ScrollState.clampScroll { s with scrollableHeight := max 0 (natural - contentHeight) }

/-- Events that touch a scrollable box's vertical scroll state. -/
inductive ScrollEvent where
  | wheel (delta : ℚ)
  | relayout (natural contentHeight : ℚ)

def ScrollState.step (s : ScrollState) : ScrollEvent → ScrollState
  | .wheel d => s.wheel d
  | .relayout n c => s.relayout n c

/-- Initial scroll state of a freshly built box (`scrollY = 0`,
`scrollableHeight = 0`). -/
def ScrollState.init : ScrollState := ⟨0, 0⟩

def ScrollState.run (events : List ScrollEvent) : ScrollState :=
  events.foldl ScrollState.step ScrollState.init

/-- The scroll invariant of claim C6. -/
def ScrollState.Inv (s : ScrollState) : Prop :=
  0 ≤ s.scrollY ∧ s.scrollY ≤ s.scrollableHeight ∧ 0 ≤ s.scrollableHeight

theorem clampScroll_inv (s : ScrollState) (h : 0 ≤ s.scrollableHeight) :
    s.clampScroll.Inv := by
  unfold ScrollState.Inv ScrollState.clampScroll ScrollState.maxScrollY
  refine ⟨le_max_left _ _, ?_, h⟩
  have hmin : min s.scrollY (max 0 s.scrollableHeight) ≤ s.scrollableHeight := by
    rw [max_eq_right h]; exact min_le_right _ _
  exact max_le h hmin

theorem step_inv (s : ScrollState) (e : ScrollEvent) (h : s.Inv) : (s.step e).Inv := by
  cases e with
  | wheel d => exact clampScroll_inv _ h.2.2
  | relayout n c => exact clampScroll_inv _ (le_max_left _ _)

/-- **C6.** For a render box with `overflow: scroll/auto`, the invariant
`0 ≤ scroll_y ≤ scrollable_height` holds after any sequence of wheel
events and re-layouts starting from the initial state; each wheel delta
is clamped (never fails); and a re-layout sets `scrollable_height` to
`max 0 (natural − content)` and clamps `scroll_y` down to that new
maximum. -/
theorem scroll_clamp_invariant (events : List ScrollEvent) :
    (ScrollState.run events).Inv ∧
    (∀ (s : ScrollState) (d : ℚ), 0 ≤ s.scrollableHeight → (s.wheel d).Inv) ∧
    (∀ (s : ScrollState) (n c : ℚ),
      (s.relayout n c).scrollableHeight = max 0 (n - c) ∧
      (s.relayout n c).scrollY ≤ max 0 (n - c) ∧ 0 ≤ (s.relayout n c).scrollY) := by
  refine ⟨?_, fun s d h => clampScroll_inv _ h, fun s n c => ?_⟩
  · have : ∀ (l : List ScrollEvent) (s : ScrollState), s.Inv → (l.foldl ScrollState.step s).Inv := by
      intro l
      induction l with
      | nil => exact fun s h => h
      | cons e t ih => exact fun s h => ih _ (step_inv s e h)
    exact this events ScrollState.init ⟨le_refl 0, le_refl 0, le_refl 0⟩
  · have h0 : (0:ℚ) ≤ max 0 (n - c) := le_max_left _ _
    have hi := clampScroll_inv { s with scrollableHeight := max 0 (n - c) } h0
    exact ⟨rfl, hi.2.1, hi.1⟩

/-- Witness for C6 at a concrete event sequence: scroll down 100 past
the extent 30, then a re-layout shrinks the content so the maximum
drops to 5. -/
theorem scroll_clamp_invariant_witness :
    (ScrollState.run [.relayout 130 100, .wheel (-100), .relayout 105 100]).Inv ∧
    (ScrollState.init.wheel (-100)).Inv ∧
    ((ScrollState.mk 30 30).relayout 105 100).scrollY ≤ max 0 ((105:ℚ) - 100) :=
  ⟨(scroll_clamp_invariant [.relayout 130 100, .wheel (-100), .relayout 105 100]).1,
   (scroll_clamp_invariant []).2.1 ScrollState.init (-100) (le_refl 0),
   ((scroll_clamp_invariant []).2.2 (ScrollState.mk 30 30) 105 100).2.1⟩

/-! ## Theorems for claim C9: `parseValue "0"` and the `None` sentinel -/

theorem dropWhile_eq_self_of_not {p : Char → Bool} :
    ∀ {l : List Char}, (∀ c ∈ l, p c = false) → l.dropWhile p = l
  | [], _ => rfl
  | c :: cs, h => by
      simp only [List.dropWhile_cons, h c (List.mem_cons_self c cs)]
      simp

theorem trim_eq_self {l : List Char} (h : ∀ c ∈ l, isTrimWs c = false) : trim l = l := by
  unfold trim
  rw [dropWhile_eq_self_of_not h, dropWhile_eq_self_of_not, List.reverse_reverse]
  intro c hc
  exact h c (by simpa using hc)

theorem isTrimWs_digit {c : Char} (h : isDigitChar c = true) : isTrimWs c = false := by
  simp only [isDigitChar, Bool.and_eq_true, decide_eq_true_eq] at h
  apply Bool.eq_false_iff.mpr
  intro hw
  simp only [isTrimWs, Bool.or_eq_true, decide_eq_true_eq] at hw
  rcases hw with ((rfl | rfl) | rfl) | rfl <;> exact absurd h.1 (by decide)

/-- **C9.** Parsing `"0"` yields unit `None`, whose `toPx` is the
sentinel `−1` in every context — the same as `"auto"` and `"none"` —
while every other unit-less numeric (all-digit) value string parses as
`Px` and resolves to its numeric value in every context. -/
theorem parseValue_zero_none_sentinel :
    parseValue ['0'] = some ⟨0, .None⟩ ∧
    parseValue "auto".toList = some ⟨0, .Auto⟩ ∧
    parseValue "none".toList = some ⟨0, .None⟩ ∧
    (∀ parentSize fontSize vw vh : ℚ,
      (CssValue.mk 0 .None).toPx parentSize fontSize vw vh = -1 ∧
      (CssValue.mk 0 .Auto).toPx parentSize fontSize vw vh = -1) ∧
    (∀ ds : List Char, ds ≠ [] → (∀ c ∈ ds, isDigitChar c = true) → ds ≠ ['0'] →
      parseValue ds = some ⟨(digitsToNat ds 0 : ℚ), .Px⟩ ∧
      ∀ parentSize fontSize vw vh : ℚ,
        (CssValue.mk (digitsToNat ds 0 : ℚ) .Px).toPx parentSize fontSize vw vh
          = (digitsToNat ds 0 : ℚ)) := by
  refine ⟨by decide, by decide, by decide, fun _ _ _ _ => ⟨rfl, rfl⟩, ?_⟩
  intro ds hne hdig h0
  have htrim : trim ds = ds := trim_eq_self (fun c hc => isTrimWs_digit (hdig c hc))
  have hdw : ds.dropWhile (fun c => isDigitChar c || c = '.') = [] := by
    rw [List.dropWhile_eq_nil_iff]
    intro c hc
    simp [hdig c hc]
  have htw : ds.takeWhile (fun c => isDigitChar c || c = '.') = ds := by
    rw [List.takeWhile_eq_self_iff]
    intro c hc
    simp [hdig c hc]
  obtain ⟨d, ds', rfl⟩ : ∃ d ds', ds = d :: ds' := by
    cases ds with
    | nil => exact absurd rfl hne
    | cons d ds' => exact ⟨d, ds', rfl⟩
  have hd := hdig d (List.mem_cons_self _ _)
  have hdnotdash : d ≠ '-' := by
    intro h; rw [h] at hd; revert hd; decide
  have hdnotdot : d ≠ '.' := by
    intro h; rw [h] at hd; revert hd; decide
  have hda : d ≠ 'a' := by
    intro h; rw [h] at hd; revert hd; decide
  have hdn : d ≠ 'n' := by
    intro h; rw [h] at hd; revert hd; decide
  have hneg : (((d :: ds').head? = some '-') : Bool) = false := by
    simp [hdnotdash]
  have hstof : stofDigits (d :: ds') = some ((digitsToNat (d :: ds') 0 : ℚ)) := by
    unfold stofDigits
    have hti : (d :: ds').takeWhile isDigitChar = d :: ds' :=
      List.takeWhile_eq_self_iff.mpr (fun c hc => hdig c hc)
    have hdi : (d :: ds').dropWhile isDigitChar = [] :=
      List.dropWhile_eq_nil_iff.mpr (fun c hc => hdig c hc)
    rw [hti, hdi]
    simp
  constructor
  · unfold parseValue
    rw [htrim]
    rw [if_neg (by simp), if_neg ?hnauto, if_neg ?hne0]
    case hnauto =>
      intro h
      rw [show "auto".toList = 'a' :: ['u','t','o'] from rfl, List.cons_eq_cons] at h
      exact hda h.1
    case hne0 =>
      rintro (h | h)
      · rw [show "none".toList = 'n' :: ['o','n','e'] from rfl, List.cons_eq_cons] at h
        exact hdn h.1
      · exact h0 h
    simp only [hneg, if_neg Bool.false_ne_true, htw, hdw, hstof, trim, List.dropWhile_nil,
      List.reverse_nil, List.map_nil, List.isEmpty_nil, true_or, if_pos, Bool.false_eq_true,
      if_false, List.isEmpty_eq_true]
    split
    · next hcontra =>
        exact absurd hcontra (by simp)
    · rfl
  · intro p f w vh
    rfl

/-- Witness for C9: the all-digit string `"42"` parses as `42` pixels
and resolves to `42` in the default context. -/
theorem parseValue_unitless_witness :
    parseValue ['4', '2'] = some ⟨42, .Px⟩ ∧
    (CssValue.mk 42 CssUnit.Px).toPx 0 16 1024 768 = 42 := by
  have h := parseValue_zero_none_sentinel.2.2.2.2 ['4', '2']
    (by decide) (by decide) (by decide)
  have hv : ((digitsToNat ['4', '2'] 0 : ℕ) : ℚ) = 42 := by
    have : digitsToNat ['4', '2'] 0 = 42 := by decide
    rw [this]; norm_num
  refine ⟨?_, ?_⟩
  · rw [h.1, hv]
  · have h2 := h.2 0 16 1024 768
    rwa [hv] at h2

/-! ## Flex main-axis sizing (`RenderBox::layoutFlexChildren`,
part_002 lines 2413-2564, row direction, single line) -/

/-- The inputs the first measuring pass of `layoutFlexChildren` reads
from a row-flex child: its `flex-grow`, its horizontal padding plus
border sum, and its measured intrinsic content width. -/
structure FlexChild where
  flexGrow : ℚ
  paddingBorder : ℚ
  contentWidth : ℚ
  deriving DecidableEq, Repr

instance : Inhabited FlexChild := ⟨⟨0, 0, 0⟩⟩

/-- First pass of `layoutFlexChildren` (row): a child with
`flexGrow > 0` measures as padding+border only; otherwise as
`measureIntrinsicWidth`. -/
def flexIntrinsicSize (c : FlexChild) : ℚ :=
  if 0 < c.flexGrow then c.paddingBorder else c.contentWidth

/-- Single-line total: `totalSize += intrinsicSizes[i] + (i > 0 ? gap : 0)`
(the no-wrap branch of `layoutFlexChildren`). -/
def flexTotalSize (gap : ℚ) (cs : List FlexChild) : ℚ :=
  (cs.map flexIntrinsicSize).sum + gap * ((cs.length - 1 : ℕ) : ℚ)

/-- `freeSpace = width − line.totalSize; if (freeSpace < 0) freeSpace = 0`. -/
def flexFreeSpace (width gap : ℚ) (cs : List FlexChild) : ℚ :=
  max 0 (width - flexTotalSize gap cs)

/-- The main-axis size handed to each child's layout:
`intrinsicSizes[idx] + extraSize`, where
`extraSize = freeSpace * flexGrow / totalFlexGrow` when the line has
positive total grow, else `0`. -/
def flexMainSizes (width gap : ℚ) (cs : List FlexChild) : List ℚ :=
  let free := flexFreeSpace width gap cs
  let totalGrow := (cs.map FlexChild.flexGrow).sum
  cs.map fun c =>
    flexIntrinsicSize c + if 0 < totalGrow then free * c.flexGrow / totalGrow else 0

/-- **C1.** A row flex container of main-axis width 300 with zero gap
and three children of measured intrinsic main-axis size 40 each and
`flex-grow` 1, 2, 0 assigns computed main-axis sizes 100, 160, 40:
the free space 180 is split 1:2 on top of each child's intrinsic 40. -/
theorem flex_grow_distribution (c1 c2 c3 : FlexChild)
    (hg1 : c1.flexGrow = 1) (hg2 : c2.flexGrow = 2) (hg3 : c3.flexGrow = 0)
    (hi1 : flexIntrinsicSize c1 = 40) (hi2 : flexIntrinsicSize c2 = 40)
    (hi3 : flexIntrinsicSize c3 = 40) :
    flexMainSizes 300 0 [c1, c2, c3] = [100, 160, 40] := by
  simp only [flexMainSizes, flexFreeSpace, flexTotalSize, List.map_cons, List.map_nil,
    List.sum_cons, List.sum_nil, hg1, hg2, hg3, hi1, hi2, hi3, List.length_cons,
    List.length_nil]
  norm_num

/-- Witness for C1: concrete children — the two growing ones measure 40
of padding+border, the rigid one measures content width 40. -/
theorem flex_grow_distribution_witness :
    flexMainSizes 300 0 [⟨1, 40, 0⟩, ⟨2, 40, 123⟩, ⟨0, 7, 40⟩] = [100, 160, 40] :=
  flex_grow_distribution ⟨1, 40, 0⟩ ⟨2, 40, 123⟩ ⟨0, 7, 40⟩
    rfl rfl rfl (by norm_num [flexIntrinsicSize]) (by norm_num [flexIntrinsicSize])
    (by norm_num [flexIntrinsicSize])

/-! ## Block layout with margin collapsing
(`RenderBox::layoutBlockChildren`, part_002 lines 1674-1744) -/

/-- What the margin-collapsing loop reads from a block-level child:
resolved top/bottom margins and the laid-out border-box height. -/
structure BlockChild where
  marginTop : ℚ
  marginBottom : ℚ
  borderBoxHeight : ℚ
  deriving DecidableEq, Repr

instance : Inhabited BlockChild := ⟨⟨0, 0, 0⟩⟩

/-- The block-child loop of `layoutBlockChildren`: per child,
`collapsedMargin = max(prevMarginBottom, childMarginTop)` and the child
is laid out with its margin-box top at
`currentY - prevMarginBottom + collapsedMargin - childMarginTop`, so
its border-box top is `currentY - prevMarginBottom + collapsedMargin`
(in `RenderBox::layout`, the border box starts `marginTop` below the
given `y`); afterwards `currentY = borderBox.bottom() + childMarginBottom`
and `prevMarginBottom = childMarginBottom`.  Returns each child's
border-box (top, bottom). -/
def layoutBlockGo (currentY prevMarginBottom : ℚ) : List BlockChild → List (ℚ × ℚ)
  | [] => []
  | c :: rest =>
    let collapsedMargin := max prevMarginBottom c.marginTop
    let top := currentY - prevMarginBottom + collapsedMargin
    let bottom := top + c.borderBoxHeight
    (top, bottom) :: layoutBlockGo (bottom + c.marginBottom) c.marginBottom rest

/-- Entry point: `currentY = y`, `prevMarginBottom = 0`. -/
def layoutBlockChildren (y : ℚ) (cs : List BlockChild) : List (ℚ × ℚ) :=
  layoutBlockGo y 0 cs

theorem layoutBlockGo_adjacent (cs : List BlockChild) :
    ∀ (currentY prevMB : ℚ) (i : ℕ), i + 1 < cs.length →
    ((layoutBlockGo currentY prevMB cs).getD (i + 1) (0, 0)).1
      - ((layoutBlockGo currentY prevMB cs).getD i (0, 0)).2
    = max ((cs.getD i default).marginBottom) ((cs.getD (i + 1) default).marginTop) := by
  induction cs with
  | nil => intro _ _ i h; simp at h
  | cons c rest ih =>
    intro currentY prevMB i h
    cases i with
    | zero =>
      cases rest with
      | nil => simp at h
      | cons c2 rest2 =>
        simp only [layoutBlockGo, List.getD_cons_succ, List.getD_cons_zero]
        ring
    | succ j =>
      simp only [List.length_cons, Nat.succ_lt_succ_iff] at h
      simpa only [layoutBlockGo, List.getD_cons_succ] using
        ih _ c.marginBottom j h

/-- **C3.** For any two adjacent block-level siblings in the block
margin-collapsing loop, the vertical distance between the first
sibling's border-box bottom and the second's border-box top is
`max(first.margin-bottom, second.margin-top)` — not their sum. -/
theorem block_margin_collapsing (y : ℚ) (cs : List BlockChild) (i : ℕ)
    (h : i + 1 < cs.length) :
    ((layoutBlockChildren y cs).getD (i + 1) (0, 0)).1
      - ((layoutBlockChildren y cs).getD i (0, 0)).2
    = max ((cs.getD i default).marginBottom) ((cs.getD (i + 1) default).marginTop) :=
  layoutBlockGo_adjacent cs y 0 i h

/-- Witness for C3: two blocks of height 50 with 20px vertical margins
are separated by 20 pixels, not 40. -/
theorem block_margin_collapsing_witness :
    ((layoutBlockChildren 0 [⟨20, 20, 50⟩, ⟨20, 20, 50⟩]).getD 1 (0, 0)).1
      - ((layoutBlockChildren 0 [⟨20, 20, 50⟩, ⟨20, 20, 50⟩]).getD 0 (0, 0)).2 = 20 := by
  have h := block_margin_collapsing 0 [⟨20, 20, 50⟩, ⟨20, 20, 50⟩] 0 (by norm_num)
  rw [h]
  norm_num

/-! ## Word boundaries (`isWordBoundaryAt`, `findWordBoundaries`,
HtmlParser.hpp lines 643-694).  Strings are byte lists; the `<cctype>`
classifiers below are the default-C-locale ones the code relies on. -/

/-- C `isspace` on a byte. -/
def isspaceB (b : ℕ) : Bool := b == 32 || (9 ≤ b && b ≤ 13)

/-- C `isalpha` on a byte (default locale: ASCII letters only). -/
def isalphaB (b : ℕ) : Bool := (65 ≤ b && b ≤ 90) || (97 ≤ b && b ≤ 122)

/-- C `ispunct` on a byte (default locale: ASCII punctuation). -/
def ispunctB (b : ℕ) : Bool :=
  (33 ≤ b && b ≤ 47) || (58 ≤ b && b ≤ 64) || (91 ≤ b && b ≤ 96) || (123 ≤ b && b ≤ 126)

/-- `isWordBoundaryAt`: whitespace always a boundary; a straight
apostrophe (byte 39) or the lead byte `0xe2` of the UTF-8
right-single-quote, when between two ASCII letters, is not; other
punctuation is. -/
def isWordBoundaryAt (text : List ℕ) (idx : ℕ) : Bool :=
  if text.length ≤ idx then true
  else
    let c := text.getD idx 0
    if isspaceB c then true
    else if (c == 39 || c == 226)
        && (decide (0 < idx) && isalphaB (text.getD (idx - 1) 0))
        && (decide (idx + 1 < text.length) && isalphaB (text.getD (idx + 1) 0)) then
      false
    else ispunctB c

/-- `while (start > 0 && !isWordBoundaryAt(text, start - 1)) --start;`. -/
def scanWordStart (text : List ℕ) : ℕ → ℕ
  | 0 => 0
  | s + 1 => if isWordBoundaryAt text s then s + 1 else scanWordStart text s

/-- `while (end < length && !isWordBoundaryAt(text, end)) ++end;`,
structurally recursive on the fuel `text.length - e` (the loop can run
at most that many times, and the guard `e < length` is exactly
`fuel > 0`). -/
def scanWordEndF (text : List ℕ) : ℕ → ℕ → ℕ
  | e, 0 => e
  | e, fuel + 1 => if isWordBoundaryAt text e then e else scanWordEndF text (e + 1) fuel

/-- `while (end < length && isspace(text[end])) ++end;` with the same
fuel discipline. -/
def skipTrailingWsF (text : List ℕ) : ℕ → ℕ → ℕ
  | e, 0 => e
  | e, fuel + 1 => if isspaceB (text.getD e 0) then skipTrailingWsF text (e + 1) fuel else e

/-- `findWordBoundaries`. -/
def findWordBoundaries (text : List ℕ) (charIdx : ℕ) : ℕ × ℕ :=
  if text.isEmpty then (0, 0)
  else
    let c1 := if text.length < charIdx then text.length else charIdx
    let c2 := if c1 = text.length then text.length - 1 else c1
    if isWordBoundaryAt text c2 then (c2, c2 + 1)
    else
      let s := scanWordStart text c2
      let e := scanWordEndF text c2 (text.length - c2)
      (s, skipTrailingWsF text e (text.length - e))

theorem scanWordStart_le (text : List ℕ) : ∀ s, scanWordStart text s ≤ s := by
  intro s
  induction s with
  | zero => simp [scanWordStart]
  | succ n ih =>
    unfold scanWordStart
    split
    · exact le_refl _
    · exact le_trans ih (Nat.le_succ n)

theorem scanWordEndF_ge (text : List ℕ) : ∀ fuel e, e ≤ scanWordEndF text e fuel := by
  intro fuel
  induction fuel with
  | zero => intro e; simp [scanWordEndF]
  | succ n ih =>
    intro e
    unfold scanWordEndF
    split
    · exact le_refl _
    · exact le_trans (Nat.le_succ e) (ih (e + 1))

theorem skipTrailingWsF_ge (text : List ℕ) : ∀ fuel e, e ≤ skipTrailingWsF text e fuel := by
  intro fuel
  induction fuel with
  | zero => intro e; simp [skipTrailingWsF]
  | succ n ih =>
    intro e
    unfold skipTrailingWsF
    split
    · exact le_trans (Nat.le_succ e) (ih (e + 1))
    · exact le_refl _

/-- **C4.** For non-empty `text` and `i < length text`,
`findWordBoundaries text i = (s, e)` satisfies `s ≤ i < e`; when
`text[i]` is a boundary character the result is exactly `(i, i + 1)`;
and on the bytes of `"don't"` with `i = 2` the result is `(0, 5)` — the
apostrophe between letters is not a boundary. -/
theorem findWordBoundaries_spec (text : List ℕ) (i : ℕ)
    (hne : text ≠ []) (hi : i < text.length) :
    (findWordBoundaries text i).1 ≤ i ∧ i < (findWordBoundaries text i).2 ∧
    (isWordBoundaryAt text i = true → findWordBoundaries text i = (i, i + 1)) ∧
    (text = [100, 111, 110, 39, 116] → i = 2 → findWordBoundaries text i = (0, 5)) := by
  have hc2 : ¬(text.length < i) := by omega
  have hc3 : ¬(i = text.length) := by omega
  refine ⟨?_, ?_, ?_, ?_⟩
  · unfold findWordBoundaries
    rw [if_neg (by simpa using hne)]
    simp only [if_neg hc2, if_neg hc3]
    split
    · exact le_refl i
    · exact scanWordStart_le text i
  · unfold findWordBoundaries
    rw [if_neg (by simpa using hne)]
    simp only [if_neg hc2, if_neg hc3]
    split
    · exact Nat.lt_succ_self i
    · next hbnd =>
      have h1 : i + 1 ≤ scanWordEndF text i (text.length - i) := by
        have hfuel : ∃ f, text.length - i = f + 1 := ⟨text.length - i - 1, by omega⟩
        obtain ⟨f, hf⟩ := hfuel
        rw [hf]
        unfold scanWordEndF
        rw [if_neg (by simpa using hbnd)]
        exact scanWordEndF_ge text f (i + 1)
      calc i < i + 1 := Nat.lt_succ_self i
        _ ≤ scanWordEndF text i (text.length - i) := h1
        _ ≤ _ := skipTrailingWsF_ge text _ _
  · intro hb
    unfold findWordBoundaries
    rw [if_neg (by simpa using hne)]
    simp only [if_neg hc2, if_neg hc3]
    rw [if_pos hb]
  · rintro rfl rfl
    decide

/-- Witness for C4: `"don't"`, click on index 2 — the selected word is
the whole of `don't`, bytes 0 to 5. -/
theorem findWordBoundaries_witness :
    findWordBoundaries [100, 111, 110, 39, 116] 2 = (0, 5) :=
  (findWordBoundaries_spec [100, 111, 110, 39, 116] 2 (by decide) (by decide)).2.2.2 rfl rfl

/-! ## Style application (`StyleSheet::applyProperty` /
`applyDeclarations`, StyleSheet.hpp lines 361-366, 530-536, 653-672)

`std::stof` / `std::stoi` are modelled by `stof` / `stoi` returning
`none` exactly when the C++ call would throw (no numeric conversion
possible); `applyProperty` returns `Except.error ()` in that case,
modelling the exception propagating out uncaught (no `try`/`catch`
exists anywhere on the call path from the event loop down to
`applyProperty`).  Only the claim-relevant branches are embedded:
`width` (a clean `parseValue` path), `line-height`, `z-index`,
`opacity`, `flex-grow`, `flex-shrink`; all other properties fall
through to "no change", which is sound for the claim because the elided
branches touch other fields. -/

/-- Whitespace skipped by `std::stof`/`std::stoi` (C `isspace`). -/
def isCSpace (c : Char) : Bool :=
  c = ' ' || c = '\t' || c = '\n' || (c.toNat = 11) || (c.toNat = 12) || c = '\r'

/-- `std::stof` on decimal inputs (exponents, hex, inf/nan not used by
this code base): skip whitespace, optional sign, then a mantissa that
must contain at least one digit; `none` models `std::invalid_argument`. -/
def stof (s : List Char) : Option ℚ :=
  let s1 := s.dropWhile isCSpace
  match s1 with
  | '-' :: r => (stofDigits r).map (fun q => -q)
  | '+' :: r => stofDigits r
  | _ => stofDigits s1

/-- `std::stoi` on decimal inputs; `none` models `std::invalid_argument`. -/
def stoi (s : List Char) : Option ℤ :=
  let s1 := s.dropWhile isCSpace
  let conv : List Char → Option ℤ := fun r =>
    let d := r.takeWhile isDigitChar
    if d.isEmpty then none else some (digitsToNat d 0 : ℤ)
  match s1 with
  | '-' :: r => (conv r).map (fun z => -z)
  | '+' :: r => conv r
  | _ => conv s1

/-- `str.find(sub) != std::string::npos`. -/
def containsSub (l sub : List Char) : Bool :=
  (List.range (l.length + 1)).any fun i => sub.isPrefixOf (l.drop i)

/-- The fields of `StyleSheet::ComputedStyle` touched by the embedded
`applyProperty` branches, with their C++ member initialisers. -/
structure ComputedStyle where
  fontSize : ℚ := 16
  lineHeight : ℚ := 6/5
  zIndex : ℤ := 0
  opacity : ℚ := 1
  flexGrow : ℚ := 0
  flexShrink : ℚ := 1
  width : CssValue := ⟨0, .Auto⟩
  deriving DecidableEq, Repr

/-- `StyleSheet::applyProperty`, claim-relevant branches.
`Except.error ()` is an exception escaping the function. -/
def applyProperty (property value : List Char) (style : ComputedStyle) :
    Except Unit ComputedStyle :=
  if property = "width".toList then
    match parseValue value with
    | none => .error ()
    | some v => .ok { style with width := v }
  else if property = "line-height".toList then
    let v := trim value
    if containsSub v "px".toList || containsSub v "em".toList then
      match parseValue v with
      | none => .error ()
      | some pv => .ok { style with lineHeight := pv.toPx 0 style.fontSize / style.fontSize }
    else
      match stof v with
      | none => .error ()
      | some q => .ok { style with lineHeight := q }
  else if property = "z-index".toList then
    match stoi (trim value) with
    | none => .error ()
    | some z => .ok { style with zIndex := z }
  else if property = "opacity".toList then
    match stof (trim value) with
    | none => .error ()
    | some q => .ok { style with opacity := q }
  else if property = "flex-grow".toList then
    match stof (trim value) with
    | none => .error ()
    | some q => .ok { style with flexGrow := q }
  else if property = "flex-shrink".toList then
    match stof (trim value) with
    | none => .error ()
    | some q => .ok { style with flexShrink := q }
  else .ok style

/-- `StyleSheet::applyDeclarations`: apply every declaration in order;
an exception from `applyProperty` propagates (there is no handler). -/
def applyDeclarations (decls : List (List Char × List Char))
    (style : ComputedStyle) : Except Unit ComputedStyle :=
  decls.foldlM (fun st pv => applyProperty pv.1 pv.2 st) style

/-- **C2 (counter-theorem).** Applying declarations is *not*
abort-free: a non-numeric value for `opacity` (or `line-height`,
including the standard CSS value `normal`) makes `applyProperty` throw
`std::invalid_argument` out of `std::stof`, so `applyDeclarations`
aborts and the remaining declarations — here a well-formed `width` that
would have set the field — are never applied.  This contradicts the
spec's failure policy that bad declarations are skipped silently. -/
theorem applyProperty_malformed_aborts :
    applyProperty "opacity".toList "abc".toList {} = .error () ∧
    applyProperty "line-height".toList "normal".toList {} = .error () ∧
    applyProperty "z-index".toList "auto".toList {} = .error () ∧
    applyDeclarations
      [("opacity".toList, "abc".toList), ("width".toList, "50px".toList)] {} = .error () := by
  exact ⟨rfl, rfl, rfl, rfl⟩

/-! ## Glyph hit test (`MSDFFont::decodeUTF8` lines 195-220,
`MSDFFont::hitTestText` lines 584-609).  Text is a byte list; the
`& 0x..` masks on an `unsigned char` value `c < 256` are written as
range tests and `%` powers of two. -/

/-- `MSDFFont::decodeUTF8` viewed on the byte suffix starting at `i`:
returns the decoded code point (`-1` if invalid) and the number of
bytes the loop consumes for this character (decode advance plus the
`for` increment). -/
def decodeUTF8 : List ℕ → ℤ × ℕ
  | [] => (-1, 1)
  | b :: rest =>
    let c := b % 256
    if c < 128 then ((c : ℤ), 1)
    else if 192 ≤ c ∧ c < 224 ∧ 1 ≤ rest.length then
      (((c % 32) * 64 + (rest.getD 0 0) % 64 : ℕ), 2)
    else if 224 ≤ c ∧ c < 240 ∧ 2 ≤ rest.length then
      (((c % 16) * 4096 + ((rest.getD 0 0) % 64) * 64 + (rest.getD 1 0) % 64 : ℕ), 3)
    else if 240 ≤ c ∧ c < 248 ∧ 3 ≤ rest.length then
      (((c % 8) * 262144 + ((rest.getD 0 0) % 64) * 4096
          + ((rest.getD 1 0) % 64) * 64 + (rest.getD 2 0) % 64 : ℕ), 4)
    else (-1, 1)

theorem decodeUTF8_consumed_pos (l : List ℕ) : 1 ≤ (decodeUTF8 l).2 := by
  cases l with
  | nil => norm_num [decodeUTF8]
  | cons b rest =>
    unfold decodeUTF8
    dsimp only
    split
    · norm_num
    · split
      · norm_num
      · split
        · norm_num
        · split <;> norm_num

/-- The glyph-metrics side of `MSDFFont` that `hitTestText` reads: the
atlas glyph size and the advance of each code point (`none` when the
glyph is absent or invalid). -/
structure MSDFAtlas where
  glyphSize : ℚ
  advance : ℤ → Option ℚ

/-- The scan loop of `MSDFFont::hitTestText`: `charStart` is the byte
index `i` before decoding; control characters (`cp < 32`, including the
invalid marker `-1`) are skipped without a midpoint test; otherwise `x`
grows by the glyph advance (if present) and the loop returns
`charStart` as soon as `localX < prevX + (x - prevX)/2`. -/
def hitTestLoop (adv : ℤ → Option ℚ) (scale localX : ℚ) :
    (rem : List ℕ) → ℕ → ℚ → ℚ → ℕ
  | [], i, _, _ => i
  | b :: rest, i, x, prevX =>
    let d := decodeUTF8 (b :: rest)
    if d.1 < 32 then
      hitTestLoop adv scale localX ((b :: rest).drop d.2) (i + d.2) x prevX
    else
      let x' := x + (match adv d.1 with | some a => a * scale | none => 0)
      let midpoint := prevX + (x' - prevX) / 2
      if localX < midpoint then i
      else hitTestLoop adv scale localX ((b :: rest).drop d.2) (i + d.2) x' x'
termination_by rem => rem.length
decreasing_by
  all_goals
    simp only [List.length_drop]
    have := decodeUTF8_consumed_pos (b :: rest)
    simp only [List.length_cons]
    omega

/-- `MSDFFont::hitTestText` (the atlas is assumed loaded; a missing
atlas also returns 0, like the empty/negative cases). -/
def hitTestText (atlas : MSDFAtlas) (text : List ℕ) (localX fontSize : ℚ) : ℕ :=
  if text.isEmpty || localX ≤ 0 then 0
  else hitTestLoop atlas.advance (fontSize / atlas.glyphSize) localX text 0 0 0

/-- Reference enumeration of the non-control characters of the text:
byte start index and glyph midpoint, in order, mirroring the scan
without the early return. -/
def charEntries (adv : ℤ → Option ℚ) (scale : ℚ) :
    (rem : List ℕ) → ℕ → ℚ → List (ℕ × ℚ)
  | [], _, _ => []
  | b :: rest, i, prevX =>
    let d := decodeUTF8 (b :: rest)
    if d.1 < 32 then
      charEntries adv scale ((b :: rest).drop d.2) (i + d.2) prevX
    else
      let x' := prevX + (match adv d.1 with | some a => a * scale | none => 0)
      (i, prevX + (x' - prevX) / 2) :: charEntries adv scale ((b :: rest).drop d.2) (i + d.2) x'
termination_by rem => rem.length
decreasing_by
  all_goals
    simp only [List.length_drop]
    have := decodeUTF8_consumed_pos (b :: rest)
    simp only [List.length_cons]
    omega

theorem decodeUTF8_consumed_le (b : ℕ) (rest : List ℕ) :
    (decodeUTF8 (b :: rest)).2 ≤ (b :: rest).length := by
  unfold decodeUTF8
  dsimp only
  split
  · simp
  · split
    · next h => simp only [List.length_cons]; omega
    · split
      · next h => simp only [List.length_cons]; omega
      · split
        · next h => simp only [List.length_cons]; omega
        · simp

theorem hitTestLoop_eq_find (adv : ℤ → Option ℚ) (scale localX : ℚ) :
    ∀ (n : ℕ) (rem : List ℕ), rem.length ≤ n → ∀ (i : ℕ) (prevX : ℚ),
    hitTestLoop adv scale localX rem i prevX prevX
      = (match (charEntries adv scale rem i prevX).find? (fun e => decide (localX < e.2)) with
         | some e => e.1
         | none => i + rem.length) := by
  intro n
  induction n with
  | zero =>
    intro rem hlen i prevX
    have : rem = [] := List.length_eq_zero.mp (Nat.le_zero.mp hlen)
    subst this
    simp [hitTestLoop, charEntries]
  | succ m ih =>
    intro rem hlen i prevX
    cases rem with
    | nil => simp [hitTestLoop, charEntries]
    | cons b rest =>
      have hk1 : 1 ≤ (decodeUTF8 (b :: rest)).2 := decodeUTF8_consumed_pos _
      have hk2 : (decodeUTF8 (b :: rest)).2 ≤ (b :: rest).length := decodeUTF8_consumed_le b rest
      have hdrop : ((b :: rest).drop (decodeUTF8 (b :: rest)).2).length ≤ m := by
        simp only [List.length_drop]
        simp only [List.length_cons] at hlen ⊢
        omega
      rw [hitTestLoop, charEntries]
      dsimp only
      split
      · -- control character: skipped by both scans
        rw [ih _ hdrop]
        have : i + (decodeUTF8 (b :: rest)).2 + ((b :: rest).drop (decodeUTF8 (b :: rest)).2).length
            = i + (b :: rest).length := by
          simp only [List.length_drop]
          omega
        rw [this]
      · -- real character: head entry, then the tails agree
        by_cases hmid : localX <
            prevX + (prevX + (match adv (decodeUTF8 (b :: rest)).1 with
              | some a => a * scale | none => 0) - prevX) / 2
        · rw [if_pos hmid, List.find?_cons_of_pos _ (by simpa using hmid)]
        · rw [if_neg hmid, List.find?_cons_of_neg _ (by simpa using hmid)]
          have hx : prevX + (match adv (decodeUTF8 (b :: rest)).1 with
              | some a => a * scale | none => 0)
            = prevX + (match adv (decodeUTF8 (b :: rest)).1 with
              | some a => a * scale | none => 0) := rfl
          rw [ih _ hdrop]
          have : i + (decodeUTF8 (b :: rest)).2 + ((b :: rest).drop (decodeUTF8 (b :: rest)).2).length
              = i + (b :: rest).length := by
            simp only [List.length_drop]
            omega
          rw [this]

theorem charEntries_start_lt (adv : ℤ → Option ℚ) (scale : ℚ) :
    ∀ (n : ℕ) (rem : List ℕ), rem.length ≤ n → ∀ (i : ℕ) (prevX : ℚ)
    (e : ℕ × ℚ), e ∈ charEntries adv scale rem i prevX → e.1 < i + rem.length := by
  intro n
  induction n with
  | zero =>
    intro rem hlen i prevX e he
    have : rem = [] := List.length_eq_zero.mp (Nat.le_zero.mp hlen)
    subst this
    simp [charEntries] at he
  | succ m ih =>
    intro rem hlen i prevX e he
    cases rem with
    | nil => simp [charEntries] at he
    | cons b rest =>
      have hk1 : 1 ≤ (decodeUTF8 (b :: rest)).2 := decodeUTF8_consumed_pos _
      have hk2 : (decodeUTF8 (b :: rest)).2 ≤ (b :: rest).length := decodeUTF8_consumed_le b rest
      have hdrop : ((b :: rest).drop (decodeUTF8 (b :: rest)).2).length ≤ m := by
        simp only [List.length_drop]
        simp only [List.length_cons] at hlen ⊢
        omega
      have hlen2 : i + (decodeUTF8 (b :: rest)).2 + ((b :: rest).drop (decodeUTF8 (b :: rest)).2).length
          = i + (b :: rest).length := by
        simp only [List.length_drop]
        omega
      rw [charEntries] at he
      dsimp only at he
      revert he
      split
      · intro he
        have := ih _ hdrop _ _ _ he
        omega
      · intro he
        rcases List.mem_cons.mp he with rfl | he'
        · simp only [List.length_cons]
          omega
        · have := ih _ hdrop _ _ _ he'
          omega

/-- **C10.** `MSDFFont::hitTestText` is total and returns a byte index
in `[0, text.length]`: `0` when the text is empty or `localX ≤ 0`,
otherwise the start index of the first (non-control) character whose
glyph-advance midpoint exceeds `localX`, and `text.length` when
`localX` is at or beyond every character's midpoint. -/
theorem hitTestText_spec (atlas : MSDFAtlas) (text : List ℕ) (localX fontSize : ℚ) :
    hitTestText atlas text localX fontSize ≤ text.length ∧
    ((text = [] ∨ localX ≤ 0) → hitTestText atlas text localX fontSize = 0) ∧
    (text ≠ [] → 0 < localX →
      hitTestText atlas text localX fontSize
        = (match (charEntries atlas.advance (fontSize / atlas.glyphSize) text 0 0).find?
             (fun e => decide (localX < e.2)) with
           | some e => e.1
           | none => text.length)) := by
  have hmain : text ≠ [] → 0 < localX →
      hitTestText atlas text localX fontSize
        = (match (charEntries atlas.advance (fontSize / atlas.glyphSize) text 0 0).find?
             (fun e => decide (localX < e.2)) with
           | some e => e.1
           | none => text.length) := by
    intro hne hpos
    unfold hitTestText
    rw [if_neg (by simp [hne, not_le.mpr hpos])]
    simpa using hitTestLoop_eq_find atlas.advance (fontSize / atlas.glyphSize) localX
      text.length text (le_refl _) 0 0
  refine ⟨?_, ?_, hmain⟩
  · by_cases hne : text = []
    · subst hne
      simp [hitTestText]
    · by_cases hpos : 0 < localX
      · rw [hmain hne hpos]
        split
        · next e heq =>
          have := charEntries_start_lt atlas.advance (fontSize / atlas.glyphSize)
            text.length text (le_refl _) 0 0 e (List.mem_of_find?_eq_some heq)
          omega
        · exact le_refl _
      · unfold hitTestText
        rw [if_pos (by simp [not_lt.mp hpos])]
        exact Nat.zero_le _
  · rintro (rfl | hle)
    · simp [hitTestText]
    · unfold hitTestText
      rw [if_pos (by simp [hle])]

/-- Witness for C10: an atlas of glyph size 16 where every glyph
advances 8 units; text `"ab"` at font size 16 (scale 1, so each
character is 8px wide, midpoints at 4 and 12); `localX = 10` hits the
second character, byte index 1. -/
theorem hitTestText_witness :
    hitTestText ⟨16, fun _ => some 8⟩ [97, 98] 10 16 = 1 := by
  have h := (hitTestText_spec ⟨16, fun _ => some 8⟩ [97, 98] 10 16).2.2
    (by decide) (by norm_num)
  rw [h]
  norm_num [charEntries, decodeUTF8, List.find?]

/-! ## Document order of text boxes (`collectTextBoxes`,
HtmlParser.hpp lines 852-880; `RenderTree::build`, part_002 lines
2771-2778; rebuild each frame, HtmlParser.hpp lines 3168-3175) -/

/-- DOM node: element (or document) with tag and children, or text
with whitespace-collapsed content. -/
inductive NodeT where
  | element (tag : List Char) (children : List NodeT)
  | text (content : List Char)

def nodeChildren : NodeT → List NodeT
  | .element _ cs => cs
  | .text _ => []

/-- Render box: node back-reference, text line boxes (their strings),
children.  `RenderTree::build` creates one box per DOM node with
children in DOM order; layout fills `textLines`. -/
inductive RBox where
  | mk (node : NodeT) (textLines : List (List Char)) (children : List RBox)

def RBox.node : RBox → NodeT
  | .mk n _ _ => n

def RBox.textLines : RBox → List (List Char)
  | .mk _ ls _ => ls

def RBox.children : RBox → List RBox
  | .mk _ _ cs => cs

/-- The box tree mirrors the DOM: each box's children carry exactly the
node's children as their back-references, recursively
(`RenderTree::build`). -/
inductive Mirrors : RBox → Prop
  | mk : ∀ (n : NodeT) (lines : List (List Char)) (cs : List RBox),
      cs.map RBox.node = nodeChildren n →
      (∀ c ∈ cs, Mirrors c) →
      Mirrors (RBox.mk n lines cs)

/-- After layout, a text box has line boxes iff its content is
non-empty (the laid-out-text-box invariant of the data model). -/
inductive GoodLines : RBox → Prop
  | mk : ∀ (n : NodeT) (lines : List (List Char)) (cs : List RBox),
      (∀ content, n = NodeT.text content → (lines = [] ↔ content = [])) →
      (∀ c ∈ cs, GoodLines c) →
      GoodLines (RBox.mk n lines cs)

/-- The `collectTextBoxes` push condition: node is Text and
`textLines` is non-empty. -/
def isSelectableTextBox (b : RBox) : Bool :=
  match b.node with
  | .text _ => !b.textLines.isEmpty
  | _ => false

mutual

/-- `collectTextBoxes` (recursive): visit the box, push it when its
node is Text with non-empty `textLines`, then recurse into children in
order — a pre-order DFS. -/
def collectTextBoxes : RBox → List RBox
  | .mk n lines cs =>
    (if isSelectableTextBox (.mk n lines cs) then [RBox.mk n lines cs] else [])
      ++ collectList cs

def collectList : List RBox → List RBox
  | [] => []
  | c :: cs => collectTextBoxes c ++ collectList cs

end

mutual

/-- Reference pre-order DFS enumeration of all boxes. -/
def preorderBoxes : RBox → List RBox
  | .mk n lines cs => RBox.mk n lines cs :: preorderList cs

def preorderList : List RBox → List RBox
  | [] => []
  | c :: cs => preorderBoxes c ++ preorderList cs

end

mutual

/-- Pre-order DFS of the DOM restricted to text nodes with non-empty
content. -/
def domTextNodes : NodeT → List NodeT
  | .text content => if content.isEmpty then [] else [NodeT.text content]
  | .element _ cs => domList cs

def domList : List NodeT → List NodeT
  | [] => []
  | c :: cs => domTextNodes c ++ domList cs

end

mutual

theorem collect_eq_filter : ∀ b : RBox,
    collectTextBoxes b = (preorderBoxes b).filter isSelectableTextBox
  | .mk n lines cs => by
    rw [collectTextBoxes, preorderBoxes, List.filter_cons, collectList_eq_filter cs]
    split
    · simp
    · simp

theorem collectList_eq_filter : ∀ l : List RBox,
    collectList l = (preorderList l).filter isSelectableTextBox
  | [] => by rw [collectList, preorderList]; rfl
  | c :: cs => by
    rw [collectList, preorderList, List.filter_append,
      collect_eq_filter c, collectList_eq_filter cs]

end

mutual

theorem collect_map_node : ∀ b : RBox, Mirrors b → GoodLines b →
    (collectTextBoxes b).map RBox.node = domTextNodes b.node
  | .mk n lines cs, hm, hg => by
    cases hm with
    | mk _ _ _ hmap hallm =>
      cases hg with
      | mk _ _ _ hiff hallg =>
        rw [collectTextBoxes, List.map_append, collectList_map_node cs hallm hallg,
          RBox.node]
        cases n with
        | element tag cs' =>
          have hsel : isSelectableTextBox (RBox.mk (.element tag cs') lines cs) = false := by
            simp [isSelectableTextBox, RBox.node]
          have hmap' : cs.map RBox.node = cs' := by simpa [nodeChildren] using hmap
          rw [domTextNodes, hsel, hmap']
          simp
        | text content =>
          have hcs : cs = [] := by simpa [nodeChildren] using hmap
          subst hcs
          have hiff' := hiff content rfl
          rw [domTextNodes]
          by_cases hl : lines = []
          · have hc : content = [] := hiff'.mp hl
            subst hc
            subst hl
            simp [isSelectableTextBox, RBox.node, RBox.textLines, domList]
          · have hsel : isSelectableTextBox (RBox.mk (.text content) lines []) = true := by
              simp [isSelectableTextBox, RBox.node, RBox.textLines, hl]
            have hc : content ≠ [] := fun h => hl (hiff'.mpr h)
            simp [hsel, hc, domList, RBox.node]

theorem collectList_map_node : ∀ l : List RBox, (∀ c ∈ l, Mirrors c) →
    (∀ c ∈ l, GoodLines c) →
    (collectList l).map RBox.node = domList (l.map RBox.node)
  | [], _, _ => by rw [collectList]; simp [domList]
  | c :: cs, hm, hg => by
    rw [collectList, List.map_append,
      collect_map_node c (hm c (List.mem_cons_self c cs)) (hg c (List.mem_cons_self c cs)),
      collectList_map_node cs (fun x hx => hm x (List.mem_cons_of_mem c hx))
        (fun x hx => hg x (List.mem_cons_of_mem c hx)),
      List.map_cons, domList]

end

/-- **C7.** `collectTextBoxes` (which rebuilds `all_text_boxes` after
every layout) is exactly the pre-order-DFS enumeration of render boxes
whose node is Text with a non-empty text-line list; and on a render
tree that mirrors the DOM whose laid-out text boxes have lines exactly
when their content is non-empty, this order agrees with the pre-order
DFS of the DOM restricted to text nodes with non-empty content. -/
theorem allTextBoxes_document_order (b : RBox) (hm : Mirrors b) (hg : GoodLines b) :
    collectTextBoxes b = (preorderBoxes b).filter isSelectableTextBox ∧
    (collectTextBoxes b).map RBox.node = domTextNodes b.node :=
  ⟨collect_eq_filter b, collect_map_node b hm hg⟩

/-- Witness for C7 on the tree `<p>("hi") <b>("yo")</b> ("")</p>`: the
empty text node is laid out with no lines and is excluded; the
collected order is `["hi", "yo"]` both as box filter and as DOM
pre-order. -/
theorem allTextBoxes_document_order_witness :
    collectTextBoxes
      (.mk (.element ['p'] [.text ['h','i'], .element ['b'] [.text ['y','o']], .text []])
        []
        [.mk (.text ['h','i']) [['h','i']] [],
         .mk (.element ['b'] [.text ['y','o']]) [] [.mk (.text ['y','o']) [['y','o']] []],
         .mk (.text []) [] []])
      = [.mk (.text ['h','i']) [['h','i']] [], .mk (.text ['y','o']) [['y','o']] []] ∧
    (collectTextBoxes
      (.mk (.element ['p'] [.text ['h','i'], .element ['b'] [.text ['y','o']], .text []])
        []
        [.mk (.text ['h','i']) [['h','i']] [],
         .mk (.element ['b'] [.text ['y','o']]) [] [.mk (.text ['y','o']) [['y','o']] []],
         .mk (.text []) [] []])).map RBox.node
      = domTextNodes
          (.element ['p'] [.text ['h','i'], .element ['b'] [.text ['y','o']], .text []]) := by
  have hm : Mirrors
      (.mk (.element ['p'] [.text ['h','i'], .element ['b'] [.text ['y','o']], .text []])
        []
        [.mk (.text ['h','i']) [['h','i']] [],
         .mk (.element ['b'] [.text ['y','o']]) [] [.mk (.text ['y','o']) [['y','o']] []],
         .mk (.text []) [] []]) := by
    refine Mirrors.mk _ _ _ (by simp [RBox.node, nodeChildren]) ?_
    intro c hc
    simp only [List.mem_cons, List.not_mem_nil, or_false] at hc
    rcases hc with rfl | rfl | rfl
    · exact Mirrors.mk _ _ _ (by simp [nodeChildren]) (by simp)
    · refine Mirrors.mk _ _ _ (by simp [RBox.node, nodeChildren]) ?_
      intro c hc
      simp only [List.mem_singleton] at hc
      subst hc
      exact Mirrors.mk _ _ _ (by simp [nodeChildren]) (by simp)
    · exact Mirrors.mk _ _ _ (by simp [nodeChildren]) (by simp)
  have hg : GoodLines
      (.mk (.element ['p'] [.text ['h','i'], .element ['b'] [.text ['y','o']], .text []])
        []
        [.mk (.text ['h','i']) [['h','i']] [],
         .mk (.element ['b'] [.text ['y','o']]) [] [.mk (.text ['y','o']) [['y','o']] []],
         .mk (.text []) [] []]) := by
    refine GoodLines.mk _ _ _ (by intro c h; cases h) ?_
    intro c hc
    simp only [List.mem_cons, List.not_mem_nil, or_false] at hc
    rcases hc with rfl | rfl | rfl
    · exact GoodLines.mk _ _ _ (by intro c h; injection h with h'; subst h'; simp) (by simp)
    · refine GoodLines.mk _ _ _ (by intro c h; cases h) ?_
      intro c hc
      simp only [List.mem_singleton] at hc
      subst hc
      exact GoodLines.mk _ _ _ (by intro c h; injection h with h'; subst h'; simp) (by simp)
    · exact GoodLines.mk _ _ _ (by intro c h; injection h with h'; subst h'; simp) (by simp)
  have h := allTextBoxes_document_order _ hm hg
  constructor
  · rw [h.1]
    simp [preorderBoxes, preorderList, isSelectableTextBox, RBox.node, RBox.textLines,
      List.filter]
  · exact h.2

/-! ## Copy serialization (`TextSelection::getSelectionRangeForLine`,
part_002 lines 807-858; `getSelectedText`, HtmlParser.hpp lines
1170-1211).  Boxes are identified by their document-order index
(`getBoxIndex` of a live box returns exactly its index in
`allTextBoxes`); anchor and focus are assumed to be live boxes, as the
C++ null/`-1` guards return `""`/`{0,0}` otherwise. -/

/-- The lines of one text box, as strings. -/
structure TextBoxS where
  lines : List (List Char)

instance : Inhabited TextBoxS := ⟨⟨[]⟩⟩

/-- `TextSelection` state, with anchor and focus as document-order
indices plus (line, char) positions. -/
structure SelectionS where
  boxes : List TextBoxS
  hasSelection : Bool
  anchorIdx : ℕ
  anchorLine : ℕ
  anchorChar : ℕ
  focusIdx : ℕ
  focusLine : ℕ
  focusChar : ℕ

/-- `TextSelection::getSelectionRangeForLine`: the (startChar, endChar)
half-open selection range for line `lineIdx` of box `boxIdx`, `(0, 0)`
when the box is outside the selection. -/
def getSelectionRangeForLine (sel : SelectionS) (boxIdx lineIdx lineLength : ℕ) : ℕ × ℕ :=
  let startIdx := min sel.anchorIdx sel.focusIdx
  let endIdx := max sel.anchorIdx sel.focusIdx
  if sel.hasSelection = false ∨ boxIdx < startIdx ∨ endIdx < boxIdx then (0, 0)
  else
    let isStart := boxIdx = startIdx
    let isEnd := boxIdx = endIdx
    let anchorFirst := sel.anchorIdx ≤ sel.focusIdx
    let startLine := if anchorFirst then sel.anchorLine else sel.focusLine
    let startChar := if anchorFirst then sel.anchorChar else sel.focusChar
    let endLine := if anchorFirst then sel.focusLine else sel.anchorLine
    let endChar := if anchorFirst then sel.focusChar else sel.anchorChar
    if isStart ∧ isEnd then
      let swap : Bool := endLine < startLine ∨ (startLine = endLine ∧ endChar < startChar)
      let sl := if swap then endLine else startLine
      let sc := if swap then endChar else startChar
      let el := if swap then startLine else endLine
      let ec := if swap then startChar else endChar
      if lineIdx < sl ∨ el < lineIdx then (0, 0)
      else ((if lineIdx = sl then sc else 0), (if lineIdx = el then ec else lineLength))
    else if isStart then
      if lineIdx < startLine then (0, 0)
      else ((if lineIdx = startLine then startChar else 0), lineLength)
    else if isEnd then
      if endLine < lineIdx then (0, 0)
      else (0, (if lineIdx = endLine then endChar else lineLength))
    else (0, lineLength)

/-- One iteration of the inner line loop of `getSelectedText`: when the
line has a non-trivial range, prepend one space if this is not the
box's first line and the output so far is non-empty and does not end in
a newline, then append the selected substring. -/
def emitLine (sel : SelectionS) (boxIdx lineIdx : ℕ) (line : List Char)
    (acc : List Char) : List Char :=
  let r := getSelectionRangeForLine sel boxIdx lineIdx line.length
  if r.1 < r.2 ∧ r.1 < line.length then
    let acc' := if 0 < lineIdx ∧ acc ≠ [] ∧ acc.getLast? ≠ some '\n' then acc ++ [' '] else acc
    acc' ++ ((line.drop r.1).take (r.2 - r.1))
  else acc

/-- The inner line loop (`for lineIdx in 0 .. lines.size`). -/
def emitLines (sel : SelectionS) (boxIdx : ℕ) : ℕ → List (List Char) → List Char → List Char
  | _, [], acc => acc
  | lineIdx, line :: rest, acc =>
    emitLines sel boxIdx (lineIdx + 1) rest (emitLine sel boxIdx lineIdx line acc)

/-- One iteration of the outer box loop of `getSelectedText`: skip
boxes without lines; otherwise emit one newline when this is not the
first box and the output so far is non-empty, then run the line loop. -/
def emitBox (sel : SelectionS) (startIdx boxIdx : ℕ) (acc : List Char) : List Char :=
  let box := sel.boxes.getD boxIdx default
  if box.lines.isEmpty then acc
  else
    let acc' := if startIdx < boxIdx ∧ acc ≠ [] then acc ++ ['\n'] else acc
    emitLines sel boxIdx 0 box.lines acc'

/-- The outer box loop (`for boxIdx in startIdx .. endIdx`), iterating
`count` boxes from `boxIdx`. -/
def emitBoxes (sel : SelectionS) (startIdx : ℕ) : ℕ → ℕ → List Char → List Char
  | _, 0, acc => acc
  | boxIdx, count + 1, acc =>
    emitBoxes sel startIdx (boxIdx + 1) count (emitBox sel startIdx boxIdx acc)

/-- `getSelectedText`. -/
def getSelectedText (sel : SelectionS) : List Char :=
  if sel.hasSelection = false then []
  else
    let startIdx := min sel.anchorIdx sel.focusIdx
    let endIdx := max sel.anchorIdx sel.focusIdx
    emitBoxes sel startIdx startIdx (endIdx + 1 - startIdx) []

/-- Reference: the selected substrings of the lines of one box, from
line index `lineIdx` on. -/
def linePieces (sel : SelectionS) (boxIdx : ℕ) : ℕ → List (List Char) → List (List Char)
  | _, [] => []
  | lineIdx, line :: rest =>
    let r := getSelectionRangeForLine sel boxIdx lineIdx line.length
    (if r.1 < r.2 ∧ r.1 < line.length then [(line.drop r.1).take (r.2 - r.1)] else [])
      ++ linePieces sel boxIdx (lineIdx + 1) rest

/-- Reference: all selected substrings of box `boxIdx`. -/
def boxPieces (sel : SelectionS) (boxIdx : ℕ) : List (List Char) :=
  linePieces sel boxIdx 0 (sel.boxes.getD boxIdx default).lines

/-- Join with exactly one space between consecutive pieces. -/
def joinWithSpace : List (List Char) → List Char
  | [] => []
  | p :: ps => p ++ ps.flatMap (fun q => ' ' :: q)

/-- Join with exactly one newline between consecutive pieces. -/
def joinWithNewline : List (List Char) → List Char
  | [] => []
  | p :: ps => p ++ ps.flatMap (fun q => '\n' :: q)

theorem getLast?_ne_of_not_mem {l : List Char} {a : Char} (h : a ∉ l) :
    l.getLast? ≠ some a := by
  intro hl
  obtain ⟨hne, heq⟩ := List.mem_getLast?_eq_getLast (show a ∈ l.getLast? from hl)
  exact h (heq ▸ List.getLast_mem hne)

theorem emitLines_good (sel : SelectionS) (boxIdx : ℕ)
    (lines : List (List Char)) :
    ∀ (lineIdx : ℕ) (acc : List Char),
    acc ≠ [] → acc.getLast? ≠ some '\n' → 1 ≤ lineIdx →
    (∀ p ∈ linePieces sel boxIdx lineIdx lines, p ≠ [] ∧ ('\n' : Char) ∉ p) →
    emitLines sel boxIdx lineIdx lines acc
      = acc ++ (linePieces sel boxIdx lineIdx lines).flatMap (fun q => ' ' :: q) := by
  induction lines with
  | nil => intro lineIdx acc _ _ _ _; simp [emitLines, linePieces]
  | cons line rest ih =>
    intro lineIdx acc hne hnl hli hp
    rw [emitLines, linePieces]
    by_cases hr : (getSelectionRangeForLine sel boxIdx lineIdx line.length).1
        < (getSelectionRangeForLine sel boxIdx lineIdx line.length).2
        ∧ (getSelectionRangeForLine sel boxIdx lineIdx line.length).1 < line.length
    · have hpiece := hp _ (by
        rw [linePieces, if_pos hr]
        exact List.mem_append_left _ (List.mem_singleton.mpr rfl))
      have hemit : emitLine sel boxIdx lineIdx line acc
          = (acc ++ [' ']) ++ ((line.drop (getSelectionRangeForLine sel boxIdx lineIdx
              line.length).1).take ((getSelectionRangeForLine sel boxIdx lineIdx
              line.length).2 - (getSelectionRangeForLine sel boxIdx lineIdx line.length).1)) := by
        rw [emitLine]
        simp only [if_pos hr]
        rw [if_pos ⟨by omega, hne, hnl⟩]
      rw [hemit, if_pos hr]
      have hacc2ne : (acc ++ [' ']) ++ ((line.drop (getSelectionRangeForLine sel boxIdx lineIdx
          line.length).1).take ((getSelectionRangeForLine sel boxIdx lineIdx
          line.length).2 - (getSelectionRangeForLine sel boxIdx lineIdx line.length).1)) ≠ [] := by
        simp
      have hacc2last : ((acc ++ [' ']) ++ ((line.drop (getSelectionRangeForLine sel boxIdx lineIdx
          line.length).1).take ((getSelectionRangeForLine sel boxIdx lineIdx
          line.length).2 - (getSelectionRangeForLine sel boxIdx lineIdx
          line.length).1))).getLast? ≠ some '\n' := by
        rw [List.getLast?_append_of_ne_nil _ hpiece.1]
        exact getLast?_ne_of_not_mem hpiece.2
      rw [ih (lineIdx + 1) _ hacc2ne hacc2last (by omega)
        (fun p hmem => hp p (by rw [linePieces, if_pos hr]; exact List.mem_append_right _ hmem))]
      simp [List.flatMap_cons, List.append_assoc]
    · have hemit : emitLine sel boxIdx lineIdx line acc = acc := by
        rw [emitLine, if_neg hr]
      rw [hemit, if_neg hr]
      rw [ih (lineIdx + 1) _ hne hnl (by omega)
        (fun p hmem => hp p (by rw [linePieces, if_neg hr]; simpa using hmem))]
      simp

theorem emitLines_clean (sel : SelectionS) (boxIdx : ℕ)
    (lines : List (List Char)) :
    ∀ (lineIdx : ℕ) (acc : List Char),
    (acc = [] ∨ acc.getLast? = some '\n') →
    (∀ p ∈ linePieces sel boxIdx lineIdx lines, p ≠ [] ∧ ('\n' : Char) ∉ p) →
    emitLines sel boxIdx lineIdx lines acc
      = acc ++ joinWithSpace (linePieces sel boxIdx lineIdx lines) := by
  induction lines with
  | nil => intro lineIdx acc _ _; simp [emitLines, linePieces, joinWithSpace]
  | cons line rest ih =>
    intro lineIdx acc hclean hp
    rw [emitLines, linePieces]
    by_cases hr : (getSelectionRangeForLine sel boxIdx lineIdx line.length).1
        < (getSelectionRangeForLine sel boxIdx lineIdx line.length).2
        ∧ (getSelectionRangeForLine sel boxIdx lineIdx line.length).1 < line.length
    · have hpiece := hp _ (by
        rw [linePieces, if_pos hr]
        exact List.mem_append_left _ (List.mem_singleton.mpr rfl))
      have hemit : emitLine sel boxIdx lineIdx line acc
          = acc ++ ((line.drop (getSelectionRangeForLine sel boxIdx lineIdx
              line.length).1).take ((getSelectionRangeForLine sel boxIdx lineIdx
              line.length).2 - (getSelectionRangeForLine sel boxIdx lineIdx line.length).1)) := by
        rw [emitLine]
        simp only [if_pos hr]
        rcases hclean with h0 | hlast
        · rw [if_neg (by simp [h0])]
        · rw [if_neg (by simp [hlast])]
      rw [hemit, if_pos hr]
      have hap : acc ++ ((line.drop (getSelectionRangeForLine sel boxIdx lineIdx
          line.length).1).take ((getSelectionRangeForLine sel boxIdx lineIdx
          line.length).2 - (getSelectionRangeForLine sel boxIdx lineIdx line.length).1)) ≠ [] := by
        simp [hpiece.1]
      have haplast : (acc ++ ((line.drop (getSelectionRangeForLine sel boxIdx lineIdx
          line.length).1).take ((getSelectionRangeForLine sel boxIdx lineIdx
          line.length).2 - (getSelectionRangeForLine sel boxIdx lineIdx
          line.length).1))).getLast? ≠ some '\n' := by
        rw [List.getLast?_append_of_ne_nil _ hpiece.1]
        exact getLast?_ne_of_not_mem hpiece.2
      rw [emitLines_good sel boxIdx rest (lineIdx + 1) _ hap haplast (by omega)
        (fun p hmem => hp p (by rw [linePieces, if_pos hr]; exact List.mem_append_right _ hmem))]
      simp [joinWithSpace, List.append_assoc]
    · have hemit : emitLine sel boxIdx lineIdx line acc = acc := by
        rw [emitLine, if_neg hr]
      rw [hemit, if_neg hr]
      rw [ih (lineIdx + 1) _ hclean
        (fun p hmem => hp p (by rw [linePieces, if_neg hr]; simpa using hmem))]
      simp

theorem flatMap_space_good : ∀ (ps : List (List Char)), ps ≠ [] →
    (∀ p ∈ ps, p ≠ [] ∧ ('\n' : Char) ∉ p) →
    ps.flatMap (fun q => ' ' :: q) ≠ []
      ∧ (ps.flatMap (fun q => ' ' :: q)).getLast? ≠ some '\n' := by
  intro ps
  induction ps with
  | nil => intro h; exact absurd rfl h
  | cons q qs ih =>
    intro _ hp
    have hq := hp q (List.mem_cons_self q qs)
    cases qs with
    | nil =>
      refine ⟨by simp, ?_⟩
      simp only [List.flatMap_cons, List.flatMap_nil, List.append_nil]
      rw [show (' ' :: q) = [' '] ++ q from rfl, List.getLast?_append_of_ne_nil _ hq.1]
      exact getLast?_ne_of_not_mem hq.2
    | cons q2 qs2 =>
      have hrec := ih (by simp) (fun p hm => hp p (List.mem_cons_of_mem q hm))
      refine ⟨by simp, ?_⟩
      rw [List.flatMap_cons, List.getLast?_append_of_ne_nil _ hrec.1]
      exact hrec.2

theorem joinWithSpace_good {ps : List (List Char)} (hne : ps ≠ [])
    (hp : ∀ p ∈ ps, p ≠ [] ∧ ('\n' : Char) ∉ p) :
    joinWithSpace ps ≠ [] ∧ (joinWithSpace ps).getLast? ≠ some '\n' := by
  cases ps with
  | nil => exact absurd rfl hne
  | cons p ps' =>
    have hpp := hp p (List.mem_cons_self p ps')
    rw [joinWithSpace]
    cases ps' with
    | nil =>
      refine ⟨by simp [hpp.1], ?_⟩
      simp only [List.flatMap_nil, List.append_nil]
      exact getLast?_ne_of_not_mem hpp.2
    | cons q qs =>
      have hrec := flatMap_space_good (q :: qs) (by simp)
        (fun x hm => hp x (List.mem_cons_of_mem p hm))
      refine ⟨by simp [hpp.1], ?_⟩
      rw [List.getLast?_append_of_ne_nil _ hrec.1]
      exact hrec.2

theorem boxPieces_lines_ne_nil {sel : SelectionS} {boxIdx : ℕ}
    (h : boxPieces sel boxIdx ≠ []) : ((sel.boxes.getD boxIdx default).lines).isEmpty = false := by
  rw [boxPieces] at h
  cases hl : (sel.boxes.getD boxIdx default).lines with
  | nil => rw [hl] at h; exact absurd (by rw [linePieces]) h
  | cons _ _ => simp

theorem emitBox_first (sel : SelectionS) (startIdx : ℕ)
    (hne : boxPieces sel startIdx ≠ [])
    (hp : ∀ p ∈ boxPieces sel startIdx, p ≠ [] ∧ ('\n' : Char) ∉ p) :
    emitBox sel startIdx startIdx [] = joinWithSpace (boxPieces sel startIdx) := by
  rw [emitBox]
  simp only [boxPieces_lines_ne_nil hne, Bool.false_eq_true, if_false]
  rw [if_neg (by simp)]
  exact emitLines_clean sel startIdx _ 0 [] (Or.inl rfl) hp

theorem emitBox_next (sel : SelectionS) (startIdx boxIdx : ℕ) (acc : List Char)
    (hlt : startIdx < boxIdx) (hne : acc ≠ []) (_hnl : acc.getLast? ≠ some '\n')
    (hpne : boxPieces sel boxIdx ≠ [])
    (hp : ∀ p ∈ boxPieces sel boxIdx, p ≠ [] ∧ ('\n' : Char) ∉ p) :
    emitBox sel startIdx boxIdx acc = acc ++ '\n' :: joinWithSpace (boxPieces sel boxIdx) := by
  rw [emitBox]
  simp only [boxPieces_lines_ne_nil hpne, Bool.false_eq_true, if_false]
  rw [if_pos ⟨hlt, hne⟩]
  rw [emitLines_clean sel boxIdx _ 0 (acc ++ ['\n'])
    (Or.inr (by rw [List.getLast?_append_of_ne_nil _ (by simp)]; rfl)) hp]
  simp [boxPieces]

theorem emitBoxes_append (sel : SelectionS) (startIdx : ℕ) :
    ∀ (count boxIdx : ℕ) (acc : List Char),
    startIdx < boxIdx → acc ≠ [] → acc.getLast? ≠ some '\n' →
    (∀ j, boxIdx ≤ j → j < boxIdx + count →
      boxPieces sel j ≠ [] ∧ ∀ p ∈ boxPieces sel j, p ≠ [] ∧ ('\n' : Char) ∉ p) →
    emitBoxes sel startIdx boxIdx count acc
      = acc ++ (List.range' boxIdx count).flatMap
          (fun j => '\n' :: joinWithSpace (boxPieces sel j)) := by
  intro count
  induction count with
  | zero => intro boxIdx acc _ _ _ _; simp [emitBoxes]
  | succ c ih =>
    intro boxIdx acc hlt hne hnl hgood
    have hg0 := hgood boxIdx (le_refl _) (by omega)
    rw [emitBoxes, emitBox_next sel startIdx boxIdx acc hlt hne hnl hg0.1 hg0.2]
    have hjws := joinWithSpace_good hg0.1 hg0.2
    have hne2 : acc ++ '\n' :: joinWithSpace (boxPieces sel boxIdx) ≠ [] := by simp
    have hnl2 : (acc ++ '\n' :: joinWithSpace (boxPieces sel boxIdx)).getLast? ≠ some '\n' := by
      rw [List.getLast?_append_of_ne_nil _ (by simp),
        show ('\n' :: joinWithSpace (boxPieces sel boxIdx))
          = ['\n'] ++ joinWithSpace (boxPieces sel boxIdx) from rfl,
        List.getLast?_append_of_ne_nil _ hjws.1]
      exact hjws.2
    rw [ih (boxIdx + 1) _ (by omega) hne2 hnl2
      (fun j hj1 hj2 => hgood j (by omega) (by omega))]
    rw [List.range'_succ]
    simp [List.append_assoc]

/-- **C5.** `getSelectedText` iterates the boxes from
`min(anchor, focus)` to `max(anchor, focus)` in document order and its
output is exactly the per-box selected substrings joined with one space
between wrapped lines of the same box and one newline between
consecutive covered boxes; an empty selection serializes to the empty
string.  (Hypotheses: every box in the range emits at least one piece,
and line texts contain no newline, which holds for laid-out lines.) -/
theorem getSelectedText_spec (sel : SelectionS) :
    (sel.hasSelection = false → getSelectedText sel = []) ∧
    (sel.hasSelection = true →
     (∀ j ∈ List.range' (min sel.anchorIdx sel.focusIdx)
        (max sel.anchorIdx sel.focusIdx + 1 - min sel.anchorIdx sel.focusIdx),
        boxPieces sel j ≠ [] ∧ ∀ p ∈ boxPieces sel j, p ≠ [] ∧ ('\n' : Char) ∉ p) →
     getSelectedText sel
       = joinWithNewline ((List.range' (min sel.anchorIdx sel.focusIdx)
           (max sel.anchorIdx sel.focusIdx + 1 - min sel.anchorIdx sel.focusIdx)).map
           (fun j => joinWithSpace (boxPieces sel j)))) := by
  constructor
  · intro h
    rw [getSelectedText, if_pos h]
  · intro hsel hgood
    rw [getSelectedText, if_neg (by rw [hsel]; simp)]
    dsimp only
    have hcount : max sel.anchorIdx sel.focusIdx + 1 - min sel.anchorIdx sel.focusIdx
        = (max sel.anchorIdx sel.focusIdx - min sel.anchorIdx sel.focusIdx) + 1 := by
      have := min_le_max (a := sel.anchorIdx) (b := sel.focusIdx)
      omega
    rw [hcount] at hgood ⊢
    have hgood' : ∀ j, min sel.anchorIdx sel.focusIdx ≤ j →
        j < min sel.anchorIdx sel.focusIdx
          + ((max sel.anchorIdx sel.focusIdx - min sel.anchorIdx sel.focusIdx) + 1) →
        boxPieces sel j ≠ [] ∧ ∀ p ∈ boxPieces sel j, p ≠ [] ∧ ('\n' : Char) ∉ p := by
      intro j hj1 hj2
      exact hgood j (List.mem_range'_1.mpr ⟨hj1, hj2⟩)
    have hg0 := hgood' (min sel.anchorIdx sel.focusIdx) (le_refl _) (by omega)
    have hunf : emitBoxes sel (min sel.anchorIdx sel.focusIdx)
        (min sel.anchorIdx sel.focusIdx)
        ((max sel.anchorIdx sel.focusIdx - min sel.anchorIdx sel.focusIdx) + 1) []
      = emitBoxes sel (min sel.anchorIdx sel.focusIdx)
        (min sel.anchorIdx sel.focusIdx + 1)
        (max sel.anchorIdx sel.focusIdx - min sel.anchorIdx sel.focusIdx)
        (emitBox sel (min sel.anchorIdx sel.focusIdx) (min sel.anchorIdx sel.focusIdx) []) := rfl
    rw [hunf, emitBox_first sel _ hg0.1 hg0.2]
    have hjws := joinWithSpace_good hg0.1 hg0.2
    rw [emitBoxes_append sel _ _ _ _ (by omega) hjws.1 hjws.2
      (fun j hj1 hj2 => hgood' j (by omega) (by omega))]
    rw [List.range'_succ, List.map_cons, joinWithNewline]
    congr 1
    rw [List.flatMap_map]

/-- Witness for C5: spec scenario "cross-element copy" — boxes
`["alpha"]` and `["beta"]`, anchor mid-"alpha" (char 2), focus
mid-"beta" (char 2); the serialization is `"pha\nbe"`. -/
theorem getSelectedText_witness :
    getSelectedText
      ⟨[⟨[['a','l','p','h','a']]⟩, ⟨[['b','e','t','a']]⟩], true, 0, 0, 2, 1, 0, 2⟩
      = ['p','h','a','\n','b','e'] := by
  have h := (getSelectedText_spec
    ⟨[⟨[['a','l','p','h','a']]⟩, ⟨[['b','e','t','a']]⟩], true, 0, 0, 2, 1, 0, 2⟩).2
    rfl (by decide)
  rw [h]
  decide

/-! ## Sticky-column vertical caret movement (SDL_KEYDOWN Shift+Up/Down
handler, HtmlParser.hpp lines 2992-3148; `TextSelection` goalX fields,
part_002 lines 706-742).

A `VLine` is one entry of the handler's `allLines` vector (visual line:
owning box id, line index, y, x, width) together with the per-character
glyph advances of its text (the handler measures prefix widths and
single-character widths through `getTextWidth`, which sums per-codepoint
advances).  The handler sorts `allLines` by (y, then x within 1px);
`moveVertical` below operates on the already-sorted list, which under
the band-separation hypotheses of the theorems is the identity
behaviour of the sort. -/

/-- One visual line of `allLines`. -/
structure VLine where
  box : ℕ
  lineIndex : ℕ
  y : ℚ
  x : ℚ
  width : ℚ
  advances : List ℚ

instance : Inhabited VLine := ⟨⟨0, 0, 0, 0, 0, []⟩⟩

/-- Caret-relevant selection state (`focusBox`, `focusLineIndex`,
`focusCharIndex`, `goalX`; `-1` means goal unset). -/
structure CaretSel where
  focusBox : ℕ
  focusLine : ℕ
  focusChar : ℕ
  goalX : ℚ

/-- `TextSelection::resetGoalX`, called after every horizontal caret
move (Shift+Left/Right handler). -/
def CaretSel.resetGoalX (s : CaretSel) : CaretSel := { s with goalX := -1 }

/-- `TextSelection::startSelection` (the goalX/focus part): a new
selection resets `goalX` to `-1`. -/
def CaretSel.startSelection (_s : CaretSel) (box lineIdx charIdx : ℕ) : CaretSel :=
  ⟨box, lineIdx, charIdx, -1⟩

/-- `getTextWidth` of the first `n` characters: sum of their advances. -/
def prefixWidth (advs : List ℚ) (n : ℕ) : ℚ := (advs.take n).sum

/-- Find the index of the focus line in `allLines` (the
`currentLineIdx` search loop). -/
def findLineIdx (lines : List VLine) (box lineIdx : ℕ) : Option ℕ :=
  lines.findIdx? (fun l => l.box == box && l.lineIndex == lineIdx)

/-- `FLT_MAX`. -/
def fltMax : ℚ := 2 ^ 128

/-- Up outer scan: `for (i = cur-1; i >= 0; --i) if (y_i < currentY - 1)`,
counting down; the argument is one past the index to check next. -/
def findAbove (lines : List VLine) (currentY : ℚ) : ℕ → Option ℕ
  | 0 => none
  | i + 1 =>
    if (lines.getD i default).y < currentY - 1 then some i
    else findAbove lines currentY i

/-- Up inner scan over the target band:
`for (j = i; j >= 0 && y_j >= targetY - 1; --j)`, preferring a line
whose x-range contains `targetX` (locks `bestDist = -1`), else the
nearest edge distance below `bestDist`. -/
def bandScanUp (lines : List VLine) (targetX bandY : ℚ) : ℕ → Option ℕ → ℚ → Option ℕ
  | 0, tIdx, _ => tIdx
  | j + 1, tIdx, bestDist =>
    let l := lines.getD j default
    if bandY - 1 ≤ l.y then
      if l.x ≤ targetX ∧ targetX ≤ l.x + l.width then
        bandScanUp lines targetX bandY j (some j) (-1)
      else if 0 ≤ bestDist then
        if min |l.x - targetX| |l.x + l.width - targetX| < bestDist then
          bandScanUp lines targetX bandY j (some j) (min |l.x - targetX| |l.x + l.width - targetX|)
        else bandScanUp lines targetX bandY j tIdx bestDist
      else bandScanUp lines targetX bandY j tIdx bestDist
    else tIdx

/-- Down outer scan: `for (i = cur+1; i < size; ++i) if (y_i > currentY + 1)`,
with fuel `size - i` standing for the `i < size` guard. -/
def findBelowF (lines : List VLine) (currentY : ℚ) : ℕ → ℕ → Option ℕ
  | _, 0 => none
  | i, fuel + 1 =>
    if currentY + 1 < (lines.getD i default).y then some i
    else findBelowF lines currentY (i + 1) fuel

/-- Down inner scan: `for (j = i; j < size && y_j <= targetY + 1; ++j)`,
same selection rule as `bandScanUp`. -/
def bandScanDownF (lines : List VLine) (targetX bandY : ℚ) : ℕ → ℕ → Option ℕ → ℚ → Option ℕ
  | _, 0, tIdx, _ => tIdx
  | j, fuel + 1, tIdx, bestDist =>
    let l := lines.getD j default
    if l.y ≤ bandY + 1 then
      if l.x ≤ targetX ∧ targetX ≤ l.x + l.width then
        bandScanDownF lines targetX bandY (j + 1) fuel (some j) (-1)
      else if 0 ≤ bestDist then
        if min |l.x - targetX| |l.x + l.width - targetX| < bestDist then
          bandScanDownF lines targetX bandY (j + 1) fuel (some j)
            (min |l.x - targetX| |l.x + l.width - targetX|)
        else bandScanDownF lines targetX bandY (j + 1) fuel tIdx bestDist
      else bandScanDownF lines targetX bandY (j + 1) fuel tIdx bestDist
    else tIdx

/-- Character position at `targetX` in the target line: before the line
start → 0; at or past the line end → text length; otherwise the first
character whose advance midpoint lies beyond `targetX`. -/
def charAtXLoop (targetX : ℚ) : List ℚ → ℚ → ℕ → ℕ
  | [], _, idx => idx
  | w :: rest, x, idx =>
    if targetX < x + w / 2 then idx else charAtXLoop targetX rest (x + w) (idx + 1)

def charIndexAtX (l : VLine) (targetX : ℚ) : ℕ :=
  if targetX ≤ l.x then 0
  else if l.x + l.width ≤ targetX then l.advances.length
  else charAtXLoop targetX l.advances l.x 0

/-- Direction of a vertical caret move. -/
inductive VDir where
  | up
  | down

/-- The Shift+Up / Shift+Down handler: compute the focus caret's
absolute X, set `goalX` on first use, find the current visual line,
pick the target line in the band above/below (falling back to the first
line / the end of the last line), and place the caret at the character
nearest `goalX`.  On Up the first-line fallback also goes through the
common `targetLineIdx ≥ 0` block (so the char index is recomputed from
`goalX`), while the Down fallback leaves the end-of-line caret as is —
both exactly as in the C++. -/
def moveVertical (dir : VDir) (lines : List VLine) (sel : CaretSel) : CaretSel :=
  match findLineIdx lines sel.focusBox sel.focusLine with
  | none => sel
  | some cur =>
    let l0 := lines.getD cur default
    let cursorX := l0.x + prefixWidth l0.advances sel.focusChar
    let goalX := if sel.goalX < 0 then cursorX else sel.goalX
    let targetX := goalX
    let currentY := l0.y
    match dir with
    | .up =>
      let band :=
        match findAbove lines currentY cur with
        | none => none
        | some i => bandScanUp lines targetX (lines.getD i default).y (i + 1) none fltMax
      let target :=
        match band with
        | none => if lines.isEmpty then none else some 0
        | some t => some t
      match target with
      | none => { sel with goalX := goalX }
      | some t =>
        let tl := lines.getD t default
        { focusBox := tl.box, focusLine := tl.lineIndex,
          focusChar := charIndexAtX tl targetX, goalX := goalX }
    | .down =>
      let band :=
        match findBelowF lines currentY (cur + 1) (lines.length - (cur + 1)) with
        | none => none
        | some i =>
          bandScanDownF lines targetX (lines.getD i default).y i (lines.length - i) none fltMax
      match band with
      | none =>
        if lines.isEmpty then { sel with goalX := goalX }
        else
          let last := lines.getD (lines.length - 1) default
          { focusBox := last.box, focusLine := last.lineIndex,
            focusChar := last.advances.length, goalX := goalX }
      | some t =>
        let tl := lines.getD t default
        { focusBox := tl.box, focusLine := tl.lineIndex,
          focusChar := charIndexAtX tl targetX, goalX := goalX }

/-- A band member is selectable by the inner scan: its x-range contains
`targetX`, or its edge distance is below `FLT_MAX`. -/
def bandSelectable (l : VLine) (targetX : ℚ) : Prop :=
  (l.x ≤ targetX ∧ targetX ≤ l.x + l.width)
    ∨ min |l.x - targetX| |l.x + l.width - targetX| < fltMax

theorem prefixWidth_nonneg {advs : List ℚ} (h : ∀ w ∈ advs, 0 < w) (n : ℕ) :
    0 ≤ prefixWidth advs n :=
  List.sum_nonneg (fun w hw => (h w (List.mem_of_mem_take hw)).le)

theorem prefixWidth_le_sum {advs : List ℚ} (h : ∀ w ∈ advs, 0 < w) (n : ℕ) :
    prefixWidth advs n ≤ advs.sum := by
  conv_rhs => rw [← List.take_append_drop n advs]
  rw [List.sum_append]
  have hd : 0 ≤ (advs.drop n).sum :=
    List.sum_nonneg (fun w hw => (h w (List.mem_of_mem_drop hw)).le)
  unfold prefixWidth
  linarith

theorem prefixWidth_lt_sum {advs : List ℚ} (h : ∀ w ∈ advs, 0 < w) {n : ℕ}
    (hn : n < advs.length) : prefixWidth advs n < advs.sum := by
  conv_rhs => rw [← List.take_append_drop n advs]
  rw [List.sum_append]
  have hd : 0 < (advs.drop n).sum := by
    apply List.sum_pos
    · exact fun w hw => h w (List.mem_of_mem_drop hw)
    · intro hnil
      have := List.length_drop n advs
      rw [hnil] at this
      simp at this
      omega
  unfold prefixWidth
  linarith

theorem prefixWidth_pos {advs : List ℚ} (h : ∀ w ∈ advs, 0 < w) {n : ℕ}
    (hn : 0 < n) : 0 < prefixWidth advs n ∨ advs = [] := by
  cases advs with
  | nil => exact Or.inr rfl
  | cons w rest =>
    left
    cases n with
    | zero => omega
    | succ m =>
      rw [prefixWidth, List.take_succ_cons, List.sum_cons]
      have h1 : 0 < w := h w (List.mem_cons_self _ _)
      have h2 : 0 ≤ (rest.take m).sum :=
        List.sum_nonneg (fun x hx =>
          (h x (List.mem_cons_of_mem _ (List.mem_of_mem_take hx))).le)
      linarith

theorem prefixWidth_length (advs : List ℚ) : prefixWidth advs advs.length = advs.sum := by
  rw [prefixWidth, List.take_length]

theorem charAtXLoop_prefix :
    ∀ (advs : List ℚ) (c : ℕ) (x0 : ℚ) (idx : ℕ),
    (∀ w ∈ advs, 0 < w) → c < advs.length →
    charAtXLoop (x0 + prefixWidth advs c) advs x0 idx = idx + c := by
  intro advs
  induction advs with
  | nil => intro c x0 idx _ hc; simp at hc
  | cons w rest ih =>
    intro c x0 idx h hc
    have hw : 0 < w := h w (List.mem_cons_self _ _)
    cases c with
    | zero =>
      rw [prefixWidth, List.take_zero, List.sum_nil, add_zero, charAtXLoop,
        if_pos (by linarith)]
      omega
    | succ m =>
      have hpm : 0 ≤ prefixWidth rest m :=
        prefixWidth_nonneg (fun x hx => h x (List.mem_cons_of_mem _ hx)) m
      rw [prefixWidth, List.take_succ_cons, List.sum_cons, charAtXLoop,
        if_neg (by unfold prefixWidth at hpm; push_neg; linarith)]
      have := ih m (x0 + w) (idx + 1) (fun x hx => h x (List.mem_cons_of_mem _ hx))
        (by simpa using Nat.succ_lt_succ_iff.mp (by simpa using hc))
      rw [show x0 + (w + (rest.take m).sum) = x0 + w + prefixWidth rest m by
        rw [prefixWidth]; ring] at *
      rw [this]
      omega

theorem charIndexAtX_prefix (l : VLine) (c : ℕ)
    (hadv : ∀ w ∈ l.advances, 0 < w) (hw : l.width = l.advances.sum)
    (hc : c ≤ l.advances.length) :
    charIndexAtX l (l.x + prefixWidth l.advances c) = c := by
  rcases Nat.eq_zero_or_pos c with rfl | hcpos
  · rw [charIndexAtX, if_pos (by rw [prefixWidth, List.take_zero, List.sum_nil, add_zero])]
  · rcases prefixWidth_pos hadv hcpos with hp | hnil
    · rcases eq_or_lt_of_le hc with hce | hclt
      · rw [charIndexAtX, if_neg (by push_neg; linarith),
          if_pos (by rw [hce, prefixWidth_length, hw]), hce]
      · have hlt := prefixWidth_lt_sum hadv hclt
        rw [charIndexAtX, if_neg (by push_neg; linarith),
          if_neg (by push_neg; rw [hw]; linarith)]
        simpa using charAtXLoop_prefix l.advances c l.x 0 hadv hclt
    · rw [hnil] at hc
      simp at hc
      omega

theorem findAbove_first (lines : List VLine) (currentY : ℚ) (k : ℕ)
    (h : (lines.getD k default).y < currentY - 1) :
    findAbove lines currentY (k + 1) = some k := by
  rw [findAbove, if_pos h]

theorem findBelowF_first (lines : List VLine) (currentY : ℚ) (i f : ℕ)
    (h : currentY + 1 < (lines.getD i default).y) :
    findBelowF lines currentY i (f + 1) = some i := by
  rw [findBelowF, if_pos h]

theorem fltMax_pos : (0 : ℚ) ≤ fltMax := by norm_num [fltMax]

theorem bandScanUp_select (lines : List VLine) (targetX : ℚ) (k : ℕ)
    (hcont : (lines.getD k default).x ≤ targetX
      ∧ targetX ≤ (lines.getD k default).x + (lines.getD k default).width)
    (hprev : 1 ≤ k → (lines.getD (k - 1) default).y + 1 < (lines.getD k default).y) :
    bandScanUp lines targetX (lines.getD k default).y (k + 1) none fltMax = some k := by
  rw [bandScanUp]
  rw [if_pos (by linarith), if_pos hcont]
  cases k with
  | zero => rw [bandScanUp]
  | succ m =>
    have hm := hprev (by omega)
    simp only [Nat.add_sub_cancel] at hm
    rw [bandScanUp]
    rw [if_neg (by push_neg; linarith)]

theorem bandScanDownF_stop_next (lines : List VLine) (targetX bandY : ℚ) (j f : ℕ)
    (tIdx : Option ℕ) (best : ℚ)
    (h : f = 0 ∨ ¬((lines.getD j default).y ≤ bandY + 1)) :
    bandScanDownF lines targetX bandY j f tIdx best = tIdx := by
  cases f with
  | zero => rw [bandScanDownF]
  | succ f' =>
    rcases h with h0 | hny
    · exact absurd h0 (by omega)
    · rw [bandScanDownF]
      rw [if_neg hny]

theorem bandScanDownF_select (lines : List VLine) (targetX : ℚ) (k : ℕ)
    (hk1 : k + 1 < lines.length)
    (hnext : k + 2 < lines.length →
      (lines.getD (k + 1) default).y + 1 < (lines.getD (k + 2) default).y)
    (hsel : bandSelectable (lines.getD (k + 1) default) targetX) :
    bandScanDownF lines targetX (lines.getD (k + 1) default).y (k + 1)
      (lines.length - (k + 1)) none fltMax = some (k + 1) := by
  obtain ⟨f, hf⟩ : ∃ f, lines.length - (k + 1) = f + 1 := ⟨lines.length - (k + 1) - 1, by omega⟩
  rw [hf]
  have hstop : ∀ (best : ℚ),
      bandScanDownF lines targetX (lines.getD (k + 1) default).y (k + 2) f
        (some (k + 1)) best = some (k + 1) := by
    intro best
    apply bandScanDownF_stop_next
    cases f with
    | zero => exact Or.inl rfl
    | succ f' =>
      right
      have hk2 : k + 2 < lines.length := by omega
      have := hnext hk2
      push_neg
      linarith
  rw [bandScanDownF]
  rw [if_pos (by linarith)]
  rcases hsel with hcont | hdist
  · rw [if_pos hcont]
    exact hstop _
  · by_cases hcont : (lines.getD (k + 1) default).x ≤ targetX
        ∧ targetX ≤ (lines.getD (k + 1) default).x + (lines.getD (k + 1) default).width
    · rw [if_pos hcont]
      exact hstop _
    · rw [if_neg hcont, if_pos fltMax_pos, if_pos (by rw [fltMax] at hdist ⊢; exact hdist)]
      exact hstop _

theorem moveVertical_down_eq (lines : List VLine) (sel : CaretSel) (k : ℕ)
    (hfind : findLineIdx lines sel.focusBox sel.focusLine = some k)
    (hk1 : k + 1 < lines.length)
    (hy : (lines.getD k default).y + 1 < (lines.getD (k + 1) default).y)
    (hnext : k + 2 < lines.length →
      (lines.getD (k + 1) default).y + 1 < (lines.getD (k + 2) default).y)
    (hgoal : sel.goalX < 0)
    (hsel : bandSelectable (lines.getD (k + 1) default)
      ((lines.getD k default).x + prefixWidth (lines.getD k default).advances sel.focusChar)) :
    moveVertical .down lines sel =
      { focusBox := (lines.getD (k + 1) default).box,
        focusLine := (lines.getD (k + 1) default).lineIndex,
        focusChar := charIndexAtX (lines.getD (k + 1) default)
          ((lines.getD k default).x + prefixWidth (lines.getD k default).advances sel.focusChar),
        goalX := (lines.getD k default).x
          + prefixWidth (lines.getD k default).advances sel.focusChar } := by
  unfold moveVertical
  rw [hfind]
  dsimp only
  rw [if_pos hgoal]
  obtain ⟨f, hf⟩ : ∃ f, lines.length - (k + 1) = f + 1 := ⟨lines.length - (k + 1) - 1, by omega⟩
  rw [hf, findBelowF_first lines _ (k + 1) f hy]
  dsimp only
  rw [bandScanDownF_select lines _ k hk1 hnext hsel]

theorem moveVertical_up_eq (lines : List VLine) (sel : CaretSel) (k : ℕ)
    (hfind : findLineIdx lines sel.focusBox sel.focusLine = some (k + 1))
    (hgoal : 0 ≤ sel.goalX)
    (hy : (lines.getD k default).y + 1 < (lines.getD (k + 1) default).y)
    (hprev : 1 ≤ k → (lines.getD (k - 1) default).y + 1 < (lines.getD k default).y)
    (hcont : (lines.getD k default).x ≤ sel.goalX
      ∧ sel.goalX ≤ (lines.getD k default).x + (lines.getD k default).width) :
    moveVertical .up lines sel =
      { focusBox := (lines.getD k default).box,
        focusLine := (lines.getD k default).lineIndex,
        focusChar := charIndexAtX (lines.getD k default) sel.goalX,
        goalX := sel.goalX } := by
  unfold moveVertical
  rw [hfind]
  dsimp only
  rw [if_neg (by push_neg; exact hgoal)]
  rw [findAbove_first lines _ k (by linarith)]
  dsimp only
  rw [bandScanUp_select lines _ k hcont hprev]

/-- **C8.** With `goal_x` unset (−1), a Shift+Down sets it to the focus
caret's current absolute X; the following Shift+Up keeps that `goal_x`;
`resetGoalX` (run by every horizontal caret move) and `startSelection`
(a new selection) reset it to −1; and Shift+Down followed by Shift+Up,
with no horizontal interaction in between, returns the focus caret to
the original (box, line, char).  Hypotheses: the focus sits on visual
line `k`, a visual line exists strictly below, consecutive visual lines
are separated by more than 1px (so y-bands are singletons, matching the
sort), glyph advances are positive, the line width is the sum of its
advances, and coordinates are non-negative and finite. -/
theorem goalX_sticky_roundtrip (lines : List VLine) (sel : CaretSel) (k : ℕ)
    (hk1 : k + 1 < lines.length)
    (hsorted : ∀ i, i + 1 < lines.length →
      (lines.getD i default).y + 1 < (lines.getD (i + 1) default).y)
    (hfind1 : findLineIdx lines sel.focusBox sel.focusLine = some k)
    (hfind2 : findLineIdx lines (lines.getD (k + 1) default).box
      (lines.getD (k + 1) default).lineIndex = some (k + 1))
    (hbox : (lines.getD k default).box = sel.focusBox)
    (hline : (lines.getD k default).lineIndex = sel.focusLine)
    (hadv : ∀ w ∈ (lines.getD k default).advances, 0 < w)
    (hwidth : (lines.getD k default).width = (lines.getD k default).advances.sum)
    (hchar : sel.focusChar ≤ (lines.getD k default).advances.length)
    (hx : 0 ≤ (lines.getD k default).x)
    (hgoal : sel.goalX < 0)
    (hband : bandSelectable (lines.getD (k + 1) default)
      ((lines.getD k default).x + prefixWidth (lines.getD k default).advances sel.focusChar)) :
    (moveVertical .down lines sel).goalX
      = (lines.getD k default).x + prefixWidth (lines.getD k default).advances sel.focusChar ∧
    (moveVertical .up lines (moveVertical .down lines sel)).goalX
      = (moveVertical .down lines sel).goalX ∧
    (∀ s : CaretSel, s.resetGoalX.goalX = -1 ∧ ∀ b l c, (s.startSelection b l c).goalX = -1) ∧
    ((moveVertical .up lines (moveVertical .down lines sel)).focusBox = sel.focusBox ∧
     (moveVertical .up lines (moveVertical .down lines sel)).focusLine = sel.focusLine ∧
     (moveVertical .up lines (moveVertical .down lines sel)).focusChar = sel.focusChar) := by
  have hprefnn : 0 ≤ prefixWidth (lines.getD k default).advances sel.focusChar :=
    prefixWidth_nonneg hadv _
  have hprefle : prefixWidth (lines.getD k default).advances sel.focusChar
      ≤ (lines.getD k default).width := by
    rw [hwidth]; exact prefixWidth_le_sum hadv _
  have hdown := moveVertical_down_eq lines sel k hfind1 hk1 (hsorted k hk1)
    (fun h2 => hsorted (k + 1) h2) hgoal hband
  have hup := moveVertical_up_eq lines (moveVertical .down lines sel) k
    (by rw [hdown]; exact hfind2)
    (by rw [hdown]; dsimp only; linarith)
    (hsorted k hk1)
    (fun h1 => by
      have := hsorted (k - 1) (by omega)
      rwa [show k - 1 + 1 = k by omega] at this)
    (by rw [hdown]; dsimp only; constructor <;> linarith)
  refine ⟨by rw [hdown], by rw [hup], fun s => ⟨rfl, fun b l c => rfl⟩, ?_, ?_, ?_⟩
  · rw [hup]; dsimp only; rw [hbox]
  · rw [hup]; dsimp only; rw [hline]
  · rw [hup, hdown]
    dsimp only
    exact charIndexAtX_prefix (lines.getD k default) sel.focusChar hadv hwidth hchar

/-- The two visual lines of spec scenario 4: line 0 is ten 1px-advance
characters at y = 0, line 1 is two characters at y = 20. -/
def wLines : List VLine :=
  [⟨0, 0, 0, 0, 10, [1, 1, 1, 1, 1, 1, 1, 1, 1, 1]⟩,
   ⟨0, 1, 20, 0, 2, [1, 1]⟩]

/-- Witness for C8: caret at char 8 of line 0 with `goal_x` unset;
Shift+Down sets `goal_x` to 8 and lands at the end of the short line;
Shift+Up returns the caret to (box 0, line 0, char 8). -/
theorem goalX_sticky_roundtrip_witness :
    (moveVertical .down wLines ⟨0, 0, 8, -1⟩).goalX = 8 ∧
    (moveVertical .down wLines ⟨0, 0, 8, -1⟩).focusChar = 2 ∧
    (moveVertical .up wLines (moveVertical .down wLines ⟨0, 0, 8, -1⟩)).focusBox = 0 ∧
    (moveVertical .up wLines (moveVertical .down wLines ⟨0, 0, 8, -1⟩)).focusLine = 0 ∧
    (moveVertical .up wLines (moveVertical .down wLines ⟨0, 0, 8, -1⟩)).focusChar = 8 := by
  have h := goalX_sticky_roundtrip wLines ⟨0, 0, 8, -1⟩ 0
    (by norm_num [wLines])
    (by intro i hi
        have hlen : wLines.length = 2 := by norm_num [wLines]
        rw [hlen] at hi
        have hi0 : i = 0 := by omega
        subst hi0
        norm_num [wLines])
    (by norm_num [wLines, findLineIdx, List.findIdx?])
    (by norm_num [wLines, findLineIdx, List.findIdx?])
    (by norm_num [wLines]) (by norm_num [wLines])
    (by intro w hw
        norm_num [wLines] at hw
        rcases hw with rfl | rfl
        all_goals norm_num)
    (by norm_num [wLines]) (by norm_num [wLines]) (by norm_num [wLines]) (by norm_num)
    (by right
        norm_num [wLines, prefixWidth, fltMax])
  have hpre : (wLines.getD 0 default).x
      + prefixWidth (wLines.getD 0 default).advances (8 : ℕ) = 8 := by
    norm_num [wLines, prefixWidth]
  have hdchar : (moveVertical .down wLines ⟨0, 0, 8, -1⟩).focusChar = 2 := by
    have hdown := moveVertical_down_eq wLines ⟨0, 0, 8, -1⟩ 0
      (by norm_num [wLines, findLineIdx, List.findIdx?])
      (by norm_num [wLines])
      (by norm_num [wLines])
      (by intro h2; norm_num [wLines] at h2)
      (by norm_num)
      (by right; norm_num [wLines, prefixWidth, fltMax])
    rw [hdown]
    dsimp only
    rw [hpre]
    norm_num [wLines, charIndexAtX]
  exact ⟨by rw [h.1, hpre], hdchar, h.2.2.2.1, h.2.2.2.2.1, h.2.2.2.2.2⟩

end Superview
